import Mathlib

set_option maxHeartbeats 1000000

/-
Verification of `modify_icon.py`: a build-time utility that adds rounded
corners and a bottom shadow to an LVGL ARGB8888 icon stored as a C
`uint8_t` array.  The script is pure text/array processing plus per-pixel
closed-form arithmetic; Python floats are modelled by exact rationals (ℚ)
where the computation is rational, and by real numbers (ℝ) where
`math.sqrt` is involved.  Python's `int()` truncation toward zero is
modelled explicitly.
-/

/-! ## Python primitives -/

/-- Python `int()` truncation toward zero, on exact rationals. -/
def pytruncQ (q : ℚ) : ℤ := if 0 ≤ q then ⌊q⌋ else ⌈q⌉

/-- Python `int()` truncation toward zero, on reals (used where the Python
expression involves a `math.sqrt` result). -/
noncomputable def pytruncR (x : ℝ) : ℤ := if 0 ≤ x then ⌊x⌋ else ⌈x⌉

/-! ## `get_shadow_factor` (modify_icon.py lines 80–89) -/

/-- `shadow_start = int(height * 0.7)`.  The float literal `0.7` is modelled
as the exact rational `7/10`; heights are nonnegative so `int()` is `⌊·⌋`. -/
def shadow_start (height : ℕ) : ℤ := ⌊(height : ℚ) * (7 / 10)⌋

/-- `get_shadow_factor(y, height, max_darkening)`: darkening factor for the
bottom-shadow effect.  Returns `1.0` above the 70%-height threshold,
otherwise `1.0 - progress * max_darkening` with
`progress = (y - shadow_start) / (height - shadow_start)`. -/
def get_shadow_factor (y height : ℕ) (max_darkening : ℚ) : ℚ :=
  if (y : ℤ) < shadow_start height then 1
  else (1 : ℚ) -
    (((y : ℚ) - (shadow_start height : ℚ)) /
      ((height : ℚ) - (shadow_start height : ℚ))) * max_darkening

/-! ## Hex rendering and extraction (modify_icon.py lines 49–51 and 130–148)

`parse_c_file` extracts bytes with `re.findall(r'0x[0-9a-fA-F]{2}', s)`;
`format_output` renders each byte as `f"0x{b:02x}"`. -/

/-- The character class `[0-9a-fA-F]` of the extraction regex. -/
def isHexDigitChar (c : Char) : Bool :=
  ('0' ≤ c && c ≤ '9') || ('a' ≤ c && c ≤ 'f') || ('A' ≤ c && c ≤ 'F')

/-- Numeric value of one hex digit (as `int(h, 16)` sees it). -/
def hexVal (c : Char) : ℕ :=
  if '0' ≤ c && c ≤ '9' then c.toNat - '0'.toNat
  else if 'a' ≤ c && c ≤ 'f' then c.toNat - 'a'.toNat + 10
  else if 'A' ≤ c && c ≤ 'F' then c.toNat - 'A'.toNat + 10
  else 0

/-- `re.findall(r'0x[0-9a-fA-F]{2}', s)` followed by `int(h, 16)`:
left-to-right non-overlapping scan; at each position either the four-char
pattern `0x` + two hex digits matches (consume it, emit the byte) or the
scan advances one character. -/
def scanHex : List Char → List ℕ
  | [] => []
  | [_] => []
  | [_, _] => []
  | [_, _, _] => []
  | c :: x :: d1 :: d2 :: rest =>
    if c = '0' && x = 'x' && isHexDigitChar d1 && isHexDigitChar d2 then
      (hexVal d1 * 16 + hexVal d2) :: scanHex rest
    else
      scanHex (x :: d1 :: d2 :: rest)

/-- Lowercase hex digit, as produced by Python's `%x` formatting. -/
def hexDig (n : ℕ) : Char := "0123456789abcdef".toList.getD n '0'

/-- `f"0x{b:02x}"`: two-digit zero-padded lowercase hex literal.  Faithful
to Python for byte values `b < 256` (the only values the script ever
formats: parsing yields two-digit bytes and the transform keeps them in
range). -/
def byteHex (b : ℕ) : List Char := ['0', 'x', hexDig (b / 16), hexDig (b % 16)]

/-- `str.join(sep, ·)`. -/
def joinSep (sep : List Char) : List (List Char) → List Char
  | [] => []
  | [s] => s
  | s :: rest => s ++ sep ++ joinSep sep rest

/-- One entry of `line_pixels`:
`f"0x{b:02x}, 0x{g:02x}, 0x{r:02x}, 0x{a:02x}"`. -/
def renderQuad (q : ℕ × ℕ × ℕ × ℕ) : List Char :=
  byteHex q.1 ++ (", ".toList ++ (byteHex q.2.1 ++ (", ".toList ++
    (byteHex q.2.2.1 ++ (", ".toList ++ byteHex q.2.2.2)))))

/-- `"  " + ", ".join(line_pixels) + ","`: one output line. -/
def mkLine (lp : List (List Char)) : List Char :=
  "  ".toList ++ joinSep ", ".toList lp ++ [',']

/-- The `for i in range(0, len(pixels), 4)` loop of `format_output`,
iterating over pixel quadruples with running pixel counter `i` (the Python
byte index divided by 4), accumulating `lines` and `line_pixels`.  The
trailing `if line_pixels:` flush is the base case. -/
def formatLoop (width : ℕ) :
    List (ℕ × ℕ × ℕ × ℕ) → ℕ → List (List Char) → List (List Char) →
      List (List Char)
  | [], _, lines, lp => if lp = [] then lines else lines ++ [mkLine lp]
  | q :: qs, i, lines, lp =>
    if 0 < i ∧ i % width = 0 then
      formatLoop width qs (i + 1) (lines ++ [mkLine lp]) [renderQuad q]
    else
      formatLoop width qs (i + 1) lines (lp ++ [renderQuad q])

/-- `array_content = "\n".join(lines)`: the full rendered array body. -/
def renderContent (qs : List (ℕ × ℕ × ℕ × ℕ)) (width : ℕ) : List Char :=
  joinSep ['\n'] (formatLoop width qs 0 [] [])

/-- Grouping `b, g, r, a = pixels[i:i+4]`: `none` models the `ValueError`
Python raises when the tail slice has fewer than 4 elements. -/
def toQuads : List ℕ → Option (List (ℕ × ℕ × ℕ × ℕ))
  | [] => some []
  | b :: g :: r :: a :: rest => (toQuads rest).map (fun qs => (b, g, r, a) :: qs)
  | _ => none

/-! ## The `re.sub` splice of `format_output` (modify_icon.py lines 150–159)

Pattern: `(uint8_t\s+[a-zA-Z0-9_]+\[\]\s*=\s*\{)[^}]+(\})`, replacement
`\1\n<array_content>\n\2`.  `re.sub` with no `count` argument replaces
every non-overlapping match, scanning left to right. -/

/-- Python's `\s` class (the inputs here are ASCII). -/
def isPyWS (c : Char) : Bool :=
  c = ' ' || c = '\t' || c = '\n' || c = '\r' || c = '\x0b' || c = '\x0c'

/-- The identifier class `[a-zA-Z0-9_]`. -/
def isIdentChar (c : Char) : Bool :=
  ('a' ≤ c && c ≤ 'z') || ('A' ≤ c && c ≤ 'Z') || ('0' ≤ c && c ≤ '9') || c = '_'

/-- Attempt to match `uint8_t\s+[a-zA-Z0-9_]+\[\]\s*=\s*\{[^}]+\}` at the
head of `l`.  All quantified classes are disjoint from their successors, so
the greedy match is deterministic.  Returns the text of capture group 1
(everything up to and including the `{`) and the remaining input after the
closing `}`. -/
def matchAt (l : List Char) : Option (List Char × List Char) :=
  match l with
  | 'u' :: 'i' :: 'n' :: 't' :: '8' :: '_' :: 't' :: r0 =>
    let ws1 := r0.takeWhile isPyWS
    let r1 := r0.dropWhile isPyWS
    if ws1 = [] then none else
    let ident := r1.takeWhile isIdentChar
    let r2 := r1.dropWhile isIdentChar
    if ident = [] then none else
    match r2 with
    | '[' :: ']' :: r3 =>
      let ws2 := r3.takeWhile isPyWS
      let r4 := r3.dropWhile isPyWS
      match r4 with
      | '=' :: r5 =>
        let ws3 := r5.takeWhile isPyWS
        let r6 := r5.dropWhile isPyWS
        match r6 with
        | '{' :: r7 =>
          let body := r7.takeWhile (fun c => c ≠ '}')
          let r8 := r7.dropWhile (fun c => c ≠ '}')
          if body = [] then none else
          match r8 with
          | '}' :: r9 =>
            some ("uint8_t".toList ++ ws1 ++ ident ++ '[' :: ']' :: ws2 ++
              '=' :: ws3 ++ ['{'], r9)
          | _ => none
        | _ => none
      | _ => none
    | _ => none
  | _ => none

/-- `re.sub` scan: at each position, if the pattern matches, emit
`\1\n<ac>\n}` and resume after the match; otherwise copy one character.
The fuel argument strictly exceeds the number of steps (every step consumes
at least one input character), so with `fuel = l.length` the scan is exact. -/
def subAllF (ac : List Char) : ℕ → List Char → List Char
  | 0, l => l
  | fuel + 1, l =>
    match l with
    | [] => []
    | c :: cs =>
      match matchAt (c :: cs) with
      | some (g1, rest) => g1 ++ '\n' :: (ac ++ '\n' :: '}' :: subAllF ac fuel rest)
      | none => c :: subAllF ac fuel cs

/-- The `re.sub(pattern, repl, original_content, flags=re.DOTALL)` call of
`format_output` (the fourth Python argument is `flags`, not `count`, so
every match is replaced). -/
def reSubUintArray (content ac : List Char) : List Char :=
  subAllF ac content.length content

/-- `format_output(pixels, original_content, width)`: render the array body
and splice it into the original file text.  `none` models the unpack
`ValueError` when the pixel count is not a multiple of 4. -/
def format_output (pixels : List ℕ) (original_content : List Char)
    (width : ℕ) : Option (List Char) :=
  (toQuads pixels).map (fun qs => reSubUintArray original_content (renderContent qs width))

/-! ## Flattening helpers for quadruple lists -/

/-- Flatten a list of pixel quadruples back to the byte list (inverse view
of `toQuads`). -/
def flatQ : List (ℕ × ℕ × ℕ × ℕ) → List ℕ
  | [] => []
  | q :: qs => q.1 :: q.2.1 :: q.2.2.1 :: q.2.2.2 :: flatQ qs

/-- All four components of a quadruple are byte values. -/
def quadLT (q : ℕ × ℕ × ℕ × ℕ) : Prop :=
  q.1 < 256 ∧ q.2.1 < 256 ∧ q.2.2.1 < 256 ∧ q.2.2.2 < 256

/-! ## `distance_to_corner` (modify_icon.py lines 53–78)

Pixel coordinates and dimensions are integers; `radius` is a float,
modelled as a real number, and `math.sqrt` as `Real.sqrt`. -/

/-- `in_corner_x = (x < radius and cx == radius) or
(x > width - radius - 1 and cx == width - radius - 1)`. -/
def inCornerX (x width : ℕ) (radius cx : ℝ) : Prop :=
  ((x : ℝ) < radius ∧ cx = radius) ∨
    ((x : ℝ) > (width : ℝ) - radius - 1 ∧ cx = (width : ℝ) - radius - 1)

/-- `in_corner_y`, symmetric in `y`/`height`. -/
def inCornerY (y height : ℕ) (radius cy : ℝ) : Prop :=
  ((y : ℝ) < radius ∧ cy = radius) ∨
    ((y : ℝ) > (height : ℝ) - radius - 1 ∧ cy = (height : ℝ) - radius - 1)

/-- The `corners` list: top-left, top-right, bottom-left, bottom-right. -/
def cornersOf (width height : ℕ) (radius : ℝ) : List (ℝ × ℝ) :=
  [(radius, radius),
   ((width : ℝ) - radius - 1, radius),
   (radius, (height : ℝ) - radius - 1),
   ((width : ℝ) - radius - 1, (height : ℝ) - radius - 1)]

/-- `math.sqrt((x - cx) ** 2 + (y - cy) ** 2)`. -/
noncomputable def distC (x y : ℕ) (c : ℝ × ℝ) : ℝ :=
  Real.sqrt (((x : ℝ) - c.1) ^ 2 + ((y : ℝ) - c.2) ^ 2)

open Classical in
/-- One iteration of the corner loop: `some` models an early `return`,
`none` models falling through to the next corner. -/
noncomputable def cornerCheck (x y width height : ℕ) (radius : ℝ) (c : ℝ × ℝ) :
    Option ℝ :=
  if inCornerX x width radius c.1 ∧ inCornerY y height radius c.2 then
    let dist := distC x y c
    if dist > radius then some 1
    else if dist > radius - 1.5 then some ((dist - (radius - 1.5)) / 1.5)
    else none
  else none

/-- The `for cx, cy in corners` loop with early return. -/
noncomputable def scanCorners (x y width height : ℕ) (radius : ℝ) :
    List (ℝ × ℝ) → Option ℝ
  | [] => none
  | c :: cs =>
    match cornerCheck x y width height radius c with
    | some v => some v
    | none => scanCorners x y width height radius cs

/-- `distance_to_corner(x, y, width, height, radius)`: 0.0 when the loop
falls through every corner. -/
noncomputable def distance_to_corner (x y width height : ℕ) (radius : ℝ) : ℝ :=
  (scanCorners x y width height radius (cornersOf width height radius)).getD 0

/-! ## `apply_modifications` (modify_icon.py lines 91–128)

The Python function has two local byte lists: the `pixels` parameter and
the working copy `modified = list(pixels)`.  The loop body reads and writes
`modified` only; we model the pair of locals as a state record so that the
(non-)mutation of `pixels` is expressible.  Byte values are modelled as ℤ
(Python ints). -/

/-- The local variables of `apply_modifications`. -/
structure IconState where
  pixels : List ℤ
  modified : List ℤ

open Classical in
/-- The body of the double loop of `apply_modifications`, at flat pixel
index `p` (the loops enumerate `y` in `range(height)`, `x` in
`range(width)`, i.e. `p = y * width + x` in increasing order).  The four
`modified[...] = ...` assignment statements of each branch appear as
successive `List.set` updates. -/
noncomputable def loopStep (width height : ℕ) (radius : ℝ) (max_shadow : ℚ)
    (st : IconState) (p : ℕ) : IconState :=
  let x := p % width
  let y := p / width
  let idx := (y * width + x) * 4
  let b := st.modified.getD idx 0
  let g := st.modified.getD (idx + 1) 0
  let r := st.modified.getD (idx + 2) 0
  let a := st.modified.getD (idx + 3) 0
  let corner_dist := distance_to_corner x y width height radius
  if corner_dist ≥ 1 then
    let m1 := st.modified.set idx 0
    let m2 := m1.set (idx + 1) 0
    let m3 := m2.set (idx + 2) 0
    let m4 := m3.set (idx + 3) 0
    { st with modified := m4 }
  else if corner_dist > 0 then
    let new_alpha := pytruncR ((a : ℝ) * (1 - corner_dist))
    { st with modified := st.modified.set (idx + 3) new_alpha }
  else
    let shadow_factor := get_shadow_factor y height max_shadow
    if shadow_factor < 1 then
      let m1 := st.modified.set idx (pytruncQ ((b : ℚ) * shadow_factor))
      let m2 := m1.set (idx + 1) (pytruncQ ((g : ℚ) * shadow_factor))
      let m3 := m2.set (idx + 2) (pytruncQ ((r : ℚ) * shadow_factor))
      { st with modified := m3 }
    else st

/-- `apply_modifications(pixels, width, height, radius, max_shadow)`:
`none` models the `ValueError` raised on a dimension mismatch, before the
copy `modified = list(pixels)` is even made; otherwise the loop runs over
all pixels and the final `modified` is returned. -/
noncomputable def apply_modifications (pixels : List ℤ) (width height : ℕ)
    (radius : ℝ) (max_shadow : ℚ) : Option (List ℤ) :=
  if pixels.length ≠ width * height * 4 then none
  else some
    (List.foldl (loopStep width height radius max_shadow)
      ⟨pixels, pixels⟩ (List.range (width * height))).modified

/-! ## Per-pixel normal form of the transform -/

/-- Flatten a list of signed quadruples to a byte list. -/
def quadJoin : List (ℤ × ℤ × ℤ × ℤ) → List ℤ
  | [] => []
  | q :: qs => q.1 :: q.2.1 :: q.2.2.1 :: q.2.2.2 :: quadJoin qs

/-- The quadruple of bytes of pixel `p` in a flat byte list. -/
def quadAt (l : List ℤ) (p : ℕ) : ℤ × ℤ × ℤ × ℤ :=
  (l.getD (4 * p) 0, l.getD (4 * p + 1) 0, l.getD (4 * p + 2) 0, l.getD (4 * p + 3) 0)

open Classical in
/-- What one iteration of the loop does to the four bytes of its own pixel
(the loop body reads and writes only the quadruple at `idx = p * 4`). -/
noncomputable def transformQuad (width height : ℕ) (radius : ℝ)
    (max_shadow : ℚ) (x y : ℕ) (q : ℤ × ℤ × ℤ × ℤ) : ℤ × ℤ × ℤ × ℤ :=
  let corner_dist := distance_to_corner x y width height radius
  if corner_dist ≥ 1 then (0, 0, 0, 0)
  else if corner_dist > 0 then
    (q.1, q.2.1, q.2.2.1, pytruncR ((q.2.2.2 : ℝ) * (1 - corner_dist)))
  else
    let shadow_factor := get_shadow_factor y height max_shadow
    if shadow_factor < 1 then
      (pytruncQ ((q.1 : ℚ) * shadow_factor),
       pytruncQ ((q.2.1 : ℚ) * shadow_factor),
       pytruncQ ((q.2.2.1 : ℚ) * shadow_factor),
       q.2.2.2)
    else q

/-! ## Well-formed declaration decomposition of a file text

A faithful general view of the inputs the splice's pattern matches: a file
text decomposes as alternating separator texts and full declarations
`uint8_t<ws1><ident>[]<ws2>=<ws3>{<body>}`.  A match of the `re.sub`
pattern can only begin at a `'u'`, so separators without `'u'` contain no
match start. -/

/-- The substrings of one matching declaration. -/
structure UintDecl where
  ws1 : List Char
  ident : List Char
  ws2 : List Char
  ws3 : List Char
  body : List Char

/-- The declaration's full text. -/
def declText (d : UintDecl) : List Char :=
  "uint8_t".toList ++ d.ws1 ++ d.ident ++ ['[', ']'] ++ d.ws2 ++ ['='] ++
    d.ws3 ++ ['\x7b'] ++ d.body ++ ['\x7d']

/-- Capture group 1 of the pattern: the declaration head up to and
including the opening brace. -/
def declGroup1 (d : UintDecl) : List Char :=
  "uint8_t".toList ++ d.ws1 ++ d.ident ++ '[' :: ']' :: d.ws2 ++ '=' :: d.ws3 ++ ['\x7b']

/-- The declaration after `re.sub` replaces its body with `ac`:
`\1` + newline + `ac` + newline + `\2`. -/
def declReplaced (d : UintDecl) (ac : List Char) : List Char :=
  declGroup1 d ++ '\n' :: (ac ++ ['\n', '\x7d'])

/-- Well-formedness: the components lie in the regex's character classes,
with the `+`-quantified ones nonempty. -/
@[reducible]
def declWF (d : UintDecl) : Prop :=
  (∀ c ∈ d.ws1, isPyWS c = true) ∧ d.ws1 ≠ [] ∧
  (∀ c ∈ d.ident, isIdentChar c = true) ∧ d.ident ≠ [] ∧
  (∀ c ∈ d.ws2, isPyWS c = true) ∧ (∀ c ∈ d.ws3, isPyWS c = true) ∧
  (∀ c ∈ d.body, c ≠ '\x7d') ∧ d.body ≠ []

/-- A file text assembled from separator texts, declarations, and a
trailing text. -/
def assembleFile : List (List Char × UintDecl) → List Char → List Char
  | [], trail => trail
  | (s, d) :: gs, trail => s ++ (declText d ++ assembleFile gs trail)

/-- The same file with every declaration body replaced by `ac`. -/
def assembleReplaced (ac : List Char) :
    List (List Char × UintDecl) → List Char → List Char
  | [], trail => trail
  | (s, d) :: gs, trail => s ++ (declReplaced d ac ++ assembleReplaced ac gs trail)


/-! # Theorems -/

/-! ## Claim C1: which declarations does the splice replace? -/

/-- C1 (counterexample): on a file text holding two byte-array declarations
`uint8_t a[] = {0x01};` and `uint8_t b[] = {0x02};`, re-splicing the
serialized bytes `aa bb cc dd` at width 1 does NOT leave the second
declaration character-for-character unchanged: `re.sub` (called without a
`count` argument) replaces every matching declaration, so the output is not
the text predicted by the claim. -/
theorem C1_counterexample :
    format_output [0xaa, 0xbb, 0xcc, 0xdd]
        (String.toList "uint8_t a[] = {0x01};\nuint8_t b[] = {0x02};\n") 1 ≠
      some (String.toList
        "uint8_t a[] = \x7b\n  0xaa, 0xbb, 0xcc, 0xdd,\n\x7d;\nuint8_t b[] = {0x02};\n") := by
  decide

/-- A match of the splice's pattern can only begin at a `'u'`. -/
theorem matchAt_none_of_ne (c : Char) (cs : List Char) (hc : c ≠ 'u') :
    matchAt (c :: cs) = none := by
  rw [matchAt.eq_def]
  split
  · next heq => simp at heq; exact absurd heq.1 hc
  · rfl

/-- The whitespace and identifier classes of the pattern are disjoint. -/
theorem not_ws_of_ident (c : Char) (h : isIdentChar c = true) : isPyWS c = false := by
  by_contra hws
  rw [Bool.not_eq_false] at hws
  simp only [isPyWS, Bool.or_eq_true, decide_eq_true_eq] at hws
  rcases hws with ((((rfl | rfl) | rfl) | rfl) | rfl) | rfl <;>
    exact absurd h (by decide)

/-- Greedy `takeWhile` stops exactly at the boundary when the whole prefix
satisfies the class and the next character does not. -/
theorem takeWhile_append_all {p : Char → Bool} :
    ∀ (s t : List Char), (∀ c ∈ s, p c = true) → (∀ c ∈ t.take 1, p c = false) →
      List.takeWhile p (s ++ t) = s := by
  intro s
  induction s with
  | nil =>
    intro t _ ht
    match t with
    | [] => rfl
    | c :: t' =>
      have hc : p c = false := ht c (by simp)
      simp [List.takeWhile_cons, hc]
  | cons a s ih =>
    intro t hs ht
    have hpa : p a = true := hs a (by simp)
    simp only [List.cons_append, List.takeWhile_cons, hpa, if_true]
    rw [ih t (fun c hc => hs c (by simp [hc])) ht]

/-- Companion of `takeWhile_append_all` for the remainder. -/
theorem dropWhile_append_all {p : Char → Bool} :
    ∀ (s t : List Char), (∀ c ∈ s, p c = true) → (∀ c ∈ t.take 1, p c = false) →
      List.dropWhile p (s ++ t) = t := by
  intro s
  induction s with
  | nil =>
    intro t _ ht
    match t with
    | [] => rfl
    | c :: t' =>
      have hc : p c = false := ht c (by simp)
      simp [List.dropWhile_cons, hc]
  | cons a s ih =>
    intro t hs ht
    have hpa : p a = true := hs a (by simp)
    simp only [List.cons_append, List.dropWhile_cons, hpa, if_true]
    exact ih t (fun c hc => hs c (by simp [hc])) ht

/-- At the start of a well-formed declaration the pattern matches, capturing
the head through the opening brace and leaving exactly the text after the
closing brace. -/
theorem matchAt_declText (d : UintDecl) (rest : List Char) (hd : declWF d) :
    matchAt (declText d ++ rest) = some (declGroup1 d, rest) := by
  obtain ⟨hws1, hws1n, hid, hidn, hws2, hws3, hbody, hbodyn⟩ := hd
  obtain ⟨i0, it, hi⟩ := List.exists_cons_of_ne_nil hidn
  have hhead1 : ∀ c ∈ (d.ident ++ (['[', ']'] ++ (d.ws2 ++ (['='] ++ (d.ws3 ++
      (['\x7b'] ++ (d.body ++ (['\x7d'] ++ rest)))))))).take 1, isPyWS c = false := by
    rw [hi]
    intro c hc
    simp only [List.cons_append, List.take_succ_cons, List.take_zero,
      List.mem_singleton] at hc
    subst hc
    exact not_ws_of_ident _ (hid _ (by simp [hi]))
  have e1t := takeWhile_append_all _ _ hws1 hhead1
  have e1d := dropWhile_append_all _ _ hws1 hhead1
  have hhead2 : ∀ c ∈ (['[', ']'] ++ (d.ws2 ++ (['='] ++ (d.ws3 ++
      (['\x7b'] ++ (d.body ++ (['\x7d'] ++ rest))))))).take 1, isIdentChar c = false := by
    intro c hc
    simp only [List.cons_append, List.take_succ_cons, List.take_zero,
      List.mem_singleton] at hc
    subst hc
    decide
  have e2t := takeWhile_append_all _ _ hid hhead2
  have e2d := dropWhile_append_all _ _ hid hhead2
  have hhead3 : ∀ c ∈ (['='] ++ (d.ws3 ++ (['\x7b'] ++ (d.body ++
      (['\x7d'] ++ rest))))).take 1, isPyWS c = false := by
    intro c hc
    simp only [List.cons_append, List.take_succ_cons, List.take_zero,
      List.mem_singleton] at hc
    subst hc
    decide
  have e3t := takeWhile_append_all _ _ hws2 hhead3
  have e3d := dropWhile_append_all _ _ hws2 hhead3
  have hhead4 : ∀ c ∈ (['\x7b'] ++ (d.body ++ (['\x7d'] ++ rest))).take 1,
      isPyWS c = false := by
    intro c hc
    simp only [List.cons_append, List.take_succ_cons, List.take_zero,
      List.mem_singleton] at hc
    subst hc
    decide
  have e4t := takeWhile_append_all _ _ hws3 hhead4
  have e4d := dropWhile_append_all _ _ hws3 hhead4
  have hbody2 : ∀ c ∈ d.body, (fun c => decide (c ≠ '\x7d')) c = true := by
    intro c hc
    simpa using hbody c hc
  have hhead5 : ∀ c ∈ (['\x7d'] ++ rest).take 1,
      (fun c => decide (c ≠ '\x7d')) c = false := by
    intro c hc
    simp only [List.cons_append, List.take_succ_cons, List.take_zero,
      List.mem_singleton] at hc
    subst hc
    decide
  have e5t := takeWhile_append_all _ _ hbody2 hhead5
  have e5d := dropWhile_append_all _ _ hbody2 hhead5
  show matchAt ('u' :: 'i' :: 'n' :: 't' :: '8' :: '_' :: 't' ::
    (((((((((d.ws1 ++ d.ident) ++ ['[', ']']) ++ d.ws2) ++ ['=']) ++ d.ws3) ++
      ['\x7b']) ++ d.body) ++ ['\x7d']) ++ rest)) = some (declGroup1 d, rest)
  rw [matchAt]
  simp only [List.append_assoc, List.cons_append, List.nil_append] at e1t e1d e2t e2d e3t e3d e4t e4d e5t e5d ⊢
  rw [e1t, e1d]
  simp only [hws1n, if_false]
  rw [e2t, e2d]
  simp only [hidn, if_false]
  rw [e3t, e3d]
  simp only [e4t, e4d, e5t, e5d, hbodyn, if_false]
  simp [declGroup1, List.append_assoc]

/-- One scan step on a position where the pattern matches. -/
theorem subAllF_step_match (ac : List Char) (fuel : ℕ) (c : Char) (cs : List Char)
    (g1 rest : List Char) (hm : matchAt (c :: cs) = some (g1, rest)) :
    subAllF ac (fuel + 1) (c :: cs) =
      g1 ++ '\n' :: (ac ++ '\n' :: '\x7d' :: subAllF ac fuel rest) := by
  show (match matchAt (c :: cs) with
    | some (g1, rest) => g1 ++ '\n' :: (ac ++ '\n' :: '\x7d' :: subAllF ac fuel rest)
    | none => c :: subAllF ac fuel cs) = _
  rw [hm]

/-- One scan step on a position where the pattern does not match. -/
theorem subAllF_step_skip (ac : List Char) (fuel : ℕ) (c : Char) (cs : List Char)
    (hm : matchAt (c :: cs) = none) :
    subAllF ac (fuel + 1) (c :: cs) = c :: subAllF ac fuel cs := by
  show (match matchAt (c :: cs) with
    | some (g1, rest) => g1 ++ '\n' :: (ac ++ '\n' :: '\x7d' :: subAllF ac fuel rest)
    | none => c :: subAllF ac fuel cs) = _
  rw [hm]

/-- `subAllF_step_match` for any nonempty input. -/
theorem subAllF_step_match2 (ac : List Char) (fuel : ℕ) (l g1 rest : List Char)
    (hne : l ≠ []) (hm : matchAt l = some (g1, rest)) :
    subAllF ac (fuel + 1) l =
      g1 ++ '\n' :: (ac ++ '\n' :: '\x7d' :: subAllF ac fuel rest) := by
  match l with
  | c :: cs => exact subAllF_step_match ac fuel c cs g1 rest hm
  | [] => exact absurd rfl hne

/-- Text without `'u'` passes through the scan unchanged. -/
theorem subAllF_no_u (ac : List Char) :
    ∀ (t : List Char) (fuel : ℕ), t.length ≤ fuel → (∀ c ∈ t, c ≠ 'u') →
      subAllF ac fuel t = t := by
  intro t
  induction t with
  | nil =>
    intro fuel _ _
    match fuel with
    | 0 => rfl
    | f + 1 => rfl
  | cons c cs ih =>
    intro fuel hlen hu
    match fuel with
    | 0 => simp at hlen
    | f + 1 =>
      rw [subAllF_step_skip ac f c cs (matchAt_none_of_ne c cs (hu c (by simp)))]
      rw [ih f (by simp at hlen; omega) (fun c' hc' => hu c' (by simp [hc']))]

/-- The scan over an assembled file replaces every declaration body with
the new content and copies every separator character unchanged. -/
theorem subAllF_assemble (ac : List Char) :
    ∀ (groups : List (List Char × UintDecl)) (trail : List Char) (fuel : ℕ),
      (∀ g ∈ groups, (∀ c ∈ g.1, c ≠ 'u') ∧ declWF g.2) →
      (∀ c ∈ trail, c ≠ 'u') →
      (assembleFile groups trail).length ≤ fuel →
      subAllF ac fuel (assembleFile groups trail) = assembleReplaced ac groups trail := by
  intro groups
  induction groups with
  | nil =>
    intro trail fuel _ htrail hlen
    exact subAllF_no_u ac trail fuel hlen htrail
  | cons g gs ih =>
    obtain ⟨s, d⟩ := g
    intro trail fuel hg htrail hlen
    have hs : ∀ c ∈ s, c ≠ 'u' := (hg (s, d) (by simp)).1
    have hd : declWF d := (hg (s, d) (by simp)).2
    have hgs : ∀ g' ∈ gs, (∀ c ∈ g'.1, c ≠ 'u') ∧ declWF g'.2 :=
      fun g' hg' => hg g' (by simp [hg'])
    have hdne : declText d ≠ [] := by simp [declText]
    have inner : ∀ (s' : List Char) (fuel : ℕ), (∀ c ∈ s', c ≠ 'u') →
        (s' ++ (declText d ++ assembleFile gs trail)).length ≤ fuel →
        subAllF ac fuel (s' ++ (declText d ++ assembleFile gs trail)) =
          s' ++ (declReplaced d ac ++ assembleReplaced ac gs trail) := by
      intro s'
      induction s' with
      | nil =>
        intro fuel _ hlen2
        match fuel with
        | 0 =>
          exfalso
          have hpos : 0 < (declText d).length := List.length_pos.mpr hdne
          simp only [List.nil_append, List.length_append] at hlen2
          omega
        | f + 1 =>
          simp only [List.nil_append]
          rw [subAllF_step_match2 ac f _ _ _ (by simp [declText])
            (matchAt_declText d _ hd)]
          rw [ih trail f hgs htrail ?_]
          · simp [declReplaced, List.append_assoc]
          · have hpos : 0 < (declText d).length := List.length_pos.mpr hdne
            simp only [List.nil_append, List.length_append] at hlen2
            omega
      | cons c s2 ihs =>
        intro fuel hu hlen2
        match fuel with
        | 0 => simp at hlen2
        | f + 1 =>
          rw [List.cons_append,
            subAllF_step_skip ac f c _ (matchAt_none_of_ne c _ (hu c (by simp)))]
          rw [ihs f (fun c' hc' => hu c' (by simp [hc']))
            (by simp only [List.length_cons, List.cons_append] at hlen2 ⊢; omega)]
          rfl
    exact inner s fuel hs hlen

/-- C1 (amended): for EVERY input file text — decomposed as separator
texts, matching declarations, and a trailing text, with the separators and
trail free of `'u'` (a match of the pattern can only begin at `'u'`, so no
further match starts there) — the `re.sub` splice of `format_output`
substitutes the new body for EVERY matching declaration, not only the
first, and leaves all other file content character-for-character
unchanged. -/
theorem C1_every_declaration_replaced (ac : List Char)
    (groups : List (List Char × UintDecl)) (trail : List Char)
    (hgroups : ∀ g ∈ groups, (∀ c ∈ g.1, c ≠ 'u') ∧ declWF g.2)
    (htrail : ∀ c ∈ trail, c ≠ 'u') :
    reSubUintArray (assembleFile groups trail) ac = assembleReplaced ac groups trail :=
  subAllF_assemble ac groups trail (assembleFile groups trail).length hgroups htrail le_rfl

/-- C1 witness: the decomposition of the two-declaration file
`uint8_t a[] = {0x01};\nuint8_t b[] = {0x02};\n` (also checked to assemble
to exactly that text), with both bodies replaced. -/
theorem C1_witness :
    ((∀ g ∈ [(([] : List Char), UintDecl.mk [' '] ['a'] [' '] [' '] ['0', 'x', '0', '1']),
        ([';', '\n'], UintDecl.mk [' '] ['b'] [' '] [' '] ['0', 'x', '0', '2'])],
        (∀ c ∈ g.1, c ≠ 'u') ∧ declWF g.2) ∧
      (∀ c ∈ [';', '\n'], c ≠ 'u') ∧
      assembleFile [(([] : List Char), UintDecl.mk [' '] ['a'] [' '] [' '] ['0', 'x', '0', '1']),
          ([';', '\n'], UintDecl.mk [' '] ['b'] [' '] [' '] ['0', 'x', '0', '2'])] [';', '\n'] =
        String.toList "uint8_t a[] = {0x01};\nuint8_t b[] = {0x02};\n") ∧
    reSubUintArray
        (assembleFile [(([] : List Char), UintDecl.mk [' '] ['a'] [' '] [' '] ['0', 'x', '0', '1']),
          ([';', '\n'], UintDecl.mk [' '] ['b'] [' '] [' '] ['0', 'x', '0', '2'])] [';', '\n'])
        (String.toList "  0xaa, 0xbb, 0xcc, 0xdd,") =
      assembleReplaced (String.toList "  0xaa, 0xbb, 0xcc, 0xdd,")
        [(([] : List Char), UintDecl.mk [' '] ['a'] [' '] [' '] ['0', 'x', '0', '1']),
          ([';', '\n'], UintDecl.mk [' '] ['b'] [' '] [' '] ['0', 'x', '0', '2'])] [';', '\n'] :=
  ⟨⟨by decide, by decide, by decide⟩,
    C1_every_declaration_replaced _ _ _ (by decide) (by decide)⟩

/-! ## Claims C2 and C10: the shadow gradient -/

/-- C10: for every height ≥ 1 the shadow threshold `int(height * 0.7)` is
strictly below `height`, so the divisor `height - shadow_start` of
`get_shadow_factor` is at least 1 and the division never divides by zero. -/
theorem C10_shadow_divisor_pos (height : ℕ) (hh : 1 ≤ height) :
    shadow_start height < (height : ℤ) ∧
      (1 : ℚ) ≤ (height : ℚ) - (shadow_start height : ℚ) := by
  have h1 : shadow_start height < (height : ℤ) := by
    rw [shadow_start, Int.floor_lt]
    have hq : (1 : ℚ) ≤ (height : ℚ) := by exact_mod_cast hh
    push_cast
    nlinarith
  refine ⟨h1, ?_⟩
  have h2 : shadow_start height ≤ (height : ℤ) - 1 := by omega
  have h3 : (shadow_start height : ℚ) ≤ (height : ℚ) - 1 := by exact_mod_cast h2
  linarith

/-- C10 witness at height 1. -/
theorem C10_witness :
    1 ≤ 1 ∧ (shadow_start 1 < (1 : ℤ) ∧
      (1 : ℚ) ≤ (1 : ℚ) - (shadow_start 1 : ℚ)) :=
  ⟨le_refl 1, C10_shadow_divisor_pos 1 (le_refl 1)⟩

/-- C2 (counterexample): at height 10 and `max_shadow = 1/5` the threshold
is `int(10 * 0.7) = 7` and the last row y = 9 gets factor
`1 - ((9-7)/(10-7)) * (1/5) = 13/15`, which is NOT the claimed
`1 - max_shadow = 4/5`: the linear ramp never reaches `1 - max_shadow`
on the last row because the divisor is `height - shadow_start` while the
largest row index is `height - 1`. -/
theorem C2_counterexample :
    get_shadow_factor 9 10 (1 / 5) = 13 / 15 ∧
      (13 : ℚ) / 15 ≠ 1 - 1 / 5 := by
  have h7 : shadow_start 10 = 7 := by norm_num [shadow_start]
  constructor
  · rw [get_shadow_factor, h7, if_neg (by norm_num)]
    norm_num
  · norm_num

/-- C2 (amended): rows above the threshold get factor 1; rows at or below
the threshold get exactly `1 - ((y - shadow_start)/(height - shadow_start)) * max_shadow`;
the last row `y = height - 1` gets
`1 - ((height - 1 - shadow_start)/(height - shadow_start)) * max_shadow`,
which is strictly above `1 - max_shadow` whenever `max_shadow > 0` (the
ramp never reaches `1 - max_shadow`). -/
theorem C2_shadow_factor_formula (height : ℕ) (ms : ℚ) (hh : 1 ≤ height) :
    (∀ y : ℕ, (y : ℤ) < shadow_start height → get_shadow_factor y height ms = 1) ∧
    (∀ y : ℕ, shadow_start height ≤ (y : ℤ) →
      get_shadow_factor y height ms =
        1 - (((y : ℚ) - (shadow_start height : ℚ)) /
          ((height : ℚ) - (shadow_start height : ℚ))) * ms) ∧
    get_shadow_factor (height - 1) height ms =
      1 - ((((height : ℚ) - 1) - (shadow_start height : ℚ)) /
        ((height : ℚ) - (shadow_start height : ℚ))) * ms ∧
    (0 < ms → 1 - ms < get_shadow_factor (height - 1) height ms) := by
  have hss : shadow_start height ≤ ((height - 1 : ℕ) : ℤ) := by
    have := (C10_shadow_divisor_pos height hh).1
    omega
  have hden : (1 : ℚ) ≤ (height : ℚ) - (shadow_start height : ℚ) :=
    (C10_shadow_divisor_pos height hh).2
  have hc : ((height - 1 : ℕ) : ℚ) = (height : ℚ) - 1 := by
    push_cast [hh]
    ring
  have hlast : get_shadow_factor (height - 1) height ms =
      1 - ((((height : ℚ) - 1) - (shadow_start height : ℚ)) /
        ((height : ℚ) - (shadow_start height : ℚ))) * ms := by
    rw [get_shadow_factor, if_neg (by omega), hc]
  refine ⟨?_, ?_, hlast, ?_⟩
  · intro y hy
    simp [get_shadow_factor, hy]
  · intro y hy
    rw [get_shadow_factor, if_neg (by omega)]
  · intro hms
    rw [hlast]
    have hr : (((height : ℚ) - 1) - (shadow_start height : ℚ)) /
        ((height : ℚ) - (shadow_start height : ℚ)) < 1 := by
      rw [div_lt_one (by linarith)]
      linarith
    have hrm := mul_lt_mul_of_pos_right hr hms
    rw [one_mul] at hrm
    linarith

/-! ## Claim C6: round-trip stability of the serialized body -/

/-- A non-`'0'` character can never start a `0x..` match, so the scan
skips it. -/
theorem scanHex_skip (c : Char) (cs : List Char) (hc : c ≠ '0') :
    scanHex (c :: cs) = scanHex cs := by
  match cs with
  | [] => rfl
  | [a] => rfl
  | [a, b] => rfl
  | a :: b :: d :: t =>
    rw [scanHex, if_neg]
    simp [hc]

/-- The scan ignores any run of non-`'0'` separator characters. -/
theorem scanHex_seps (s rest : List Char) (hs : ∀ c ∈ s, c ≠ '0') :
    scanHex (s ++ rest) = scanHex rest := by
  induction s with
  | nil => rfl
  | cons c cs ih =>
    rw [List.cons_append, scanHex_skip c _ (hs c (by simp))]
    exact ih (fun c hc => hs c (by simp [hc]))

/-- A well-formed `0x` + two hex digits chunk is consumed whole. -/
theorem scanHex_chunk (d1 d2 : Char) (rest : List Char)
    (h1 : isHexDigitChar d1 = true) (h2 : isHexDigitChar d2 = true) :
    scanHex ('0' :: 'x' :: d1 :: d2 :: rest) =
      (hexVal d1 * 16 + hexVal d2) :: scanHex rest := by
  rw [scanHex, if_pos]
  simp [h1, h2]

/-- Digits produced by `hexDig` on values below 16 are hex digits and
`hexVal` inverts them. -/
theorem hexDig_roundtrip (n : ℕ) (hn : n < 16) :
    isHexDigitChar (hexDig n) = true ∧ hexVal (hexDig n) = n := by
  interval_cases n <;> exact ⟨by decide, by decide⟩

/-- Scanning a rendered byte recovers exactly that byte. -/
theorem scanHex_byteHex (b : ℕ) (rest : List Char) (hb : b < 256) :
    scanHex (byteHex b ++ rest) = b :: scanHex rest := by
  have hd : b / 16 < 16 := Nat.div_lt_of_lt_mul (by omega)
  have hm : b % 16 < 16 := Nat.mod_lt _ (by omega)
  obtain ⟨hd1, hd2⟩ := hexDig_roundtrip (b / 16) hd
  obtain ⟨hm1, hm2⟩ := hexDig_roundtrip (b % 16) hm
  have hsum : b / 16 * 16 + b % 16 = b := by omega
  show scanHex ('0' :: 'x' :: hexDig (b / 16) :: hexDig (b % 16) :: rest) = _
  rw [scanHex_chunk _ _ _ hd1 hm1, hd2, hm2, hsum]

/-- Scanning one rendered quadruple recovers its four bytes. -/
theorem scanHex_renderQuad (q : ℕ × ℕ × ℕ × ℕ) (rest : List Char)
    (hq : quadLT q) :
    scanHex (renderQuad q ++ rest) =
      q.1 :: q.2.1 :: q.2.2.1 :: q.2.2.2 :: scanHex rest := by
  obtain ⟨h1, h2, h3, h4⟩ := hq
  have hsep : ∀ c ∈ ", ".toList, c ≠ '0' := by decide
  rw [renderQuad]
  simp only [List.append_assoc]
  rw [scanHex_byteHex _ _ h1, scanHex_seps _ _ hsep,
    scanHex_byteHex _ _ h2, scanHex_seps _ _ hsep,
    scanHex_byteHex _ _ h3, scanHex_seps _ _ hsep,
    scanHex_byteHex _ _ h4]

/-- Scanning a comma-joined run of rendered quadruples recovers their
bytes, for any continuation. -/
theorem scanHex_joinQuads (ws : List (ℕ × ℕ × ℕ × ℕ)) (rest : List Char)
    (hws : ∀ q ∈ ws, quadLT q) :
    scanHex (joinSep ", ".toList (List.map renderQuad ws) ++ rest) =
      flatQ ws ++ scanHex rest := by
  induction ws with
  | nil => rfl
  | cons q ws ih =>
    match ws with
    | [] =>
      show scanHex (renderQuad q ++ rest) = _
      rw [scanHex_renderQuad q rest (hws q (by simp))]
      rfl
    | w :: ws' =>
      show scanHex ((renderQuad q ++ (", ".toList ++
        joinSep ", ".toList (List.map renderQuad (w :: ws')))) ++ rest) = _
      simp only [List.append_assoc]
      rw [scanHex_renderQuad q _ (hws q (by simp)),
        scanHex_seps _ _ (by decide),
        ih (fun q hq => hws q (by simp [hq]))]
      rfl

/-- Scanning one full output line (two-space indent, joined quadruples,
trailing comma) recovers the line's bytes, for any continuation. -/
theorem scanHex_mkLine (ws : List (ℕ × ℕ × ℕ × ℕ)) (rest : List Char)
    (hws : ∀ q ∈ ws, quadLT q) :
    scanHex (mkLine (List.map renderQuad ws) ++ rest) =
      flatQ ws ++ scanHex rest := by
  rw [mkLine]
  simp only [List.append_assoc]
  rw [scanHex_seps "  ".toList _ (by decide), scanHex_joinQuads ws _ hws]
  congr 1
  exact scanHex_skip ',' rest (by decide)

/-- Accumulated `lines` pass through `formatLoop` untouched in front. -/
theorem formatLoop_lines (width : ℕ) (qs : List (ℕ × ℕ × ℕ × ℕ)) :
    ∀ (i : ℕ) (lines lp : List (List Char)),
      formatLoop width qs i lines lp = lines ++ formatLoop width qs i [] lp := by
  induction qs with
  | nil =>
    intro i lines lp
    by_cases h : lp = [] <;> simp [formatLoop, h]
  | cons q qs ih =>
    intro i lines lp
    by_cases h : 0 < i ∧ i % width = 0
    · rw [formatLoop, if_pos h, ih (i + 1) (lines ++ [mkLine lp]) [renderQuad q]]
      conv_rhs => rw [formatLoop, if_pos h,
        ih (i + 1) ([] ++ [mkLine lp]) [renderQuad q]]
      simp
    · rw [formatLoop, if_neg h, ih (i + 1) lines (lp ++ [renderQuad q])]
      conv_rhs => rw [formatLoop, if_neg h, ih (i + 1) [] (lp ++ [renderQuad q])]
      simp

/-- Starting from a nonempty `line_pixels`, the loop always produces at
least one line. -/
theorem formatLoop_ne_nil (width : ℕ) (qs : List (ℕ × ℕ × ℕ × ℕ)) :
    ∀ (i : ℕ) (lp : List (List Char)), lp ≠ [] →
      formatLoop width qs i [] lp ≠ [] := by
  induction qs with
  | nil => intro i lp h; simp [formatLoop, h]
  | cons q qs ih =>
    intro i lp h
    by_cases hf : 0 < i ∧ i % width = 0
    · rw [formatLoop, if_pos hf, formatLoop_lines]
      simp
    · rw [formatLoop, if_neg hf]
      exact ih (i + 1) _ (by simp)

/-- `joinSep` on a list with at least two entries. -/
theorem joinSep_cons (sep s : List Char) (rest : List (List Char))
    (h : rest ≠ []) :
    joinSep sep (s :: rest) = s ++ sep ++ joinSep sep rest := by
  match rest with
  | r :: rs => rfl

/-- `flatQ` distributes over append. -/
theorem flatQ_append (a b : List (ℕ × ℕ × ℕ × ℕ)) :
    flatQ (a ++ b) = flatQ a ++ flatQ b := by
  induction a with
  | nil => rfl
  | cons q a ih => simp [flatQ, ih]

/-- Scanning the joined lines produced by `formatLoop` (started with the
rendered quadruples `ws` pending and `qs` to go) recovers every byte, for
any continuation text. -/
theorem scanHex_formatLoop (width : ℕ) (qs : List (ℕ × ℕ × ℕ × ℕ)) :
    ∀ (ws : List (ℕ × ℕ × ℕ × ℕ)) (i : ℕ) (rest : List Char),
      (∀ q ∈ ws, quadLT q) → (∀ q ∈ qs, quadLT q) →
      scanHex (joinSep ['\n']
          (formatLoop width qs i [] (List.map renderQuad ws)) ++ rest) =
        flatQ ws ++ (flatQ qs ++ scanHex rest) := by
  induction qs with
  | nil =>
    intro ws i rest hws _
    match ws with
    | [] => simp [formatLoop, joinSep, flatQ]
    | w :: ws' =>
      rw [formatLoop, if_neg (by simp)]
      simp only [List.nil_append]
      show scanHex (mkLine (List.map renderQuad (w :: ws')) ++ rest) = _
      rw [scanHex_mkLine _ _ hws]
      simp [flatQ]
  | cons q0 qs ih =>
    intro ws i rest hws hqs
    by_cases hf : 0 < i ∧ i % width = 0
    · rw [formatLoop, if_pos hf, formatLoop_lines]
      simp only [List.nil_append, List.singleton_append]
      have hG : formatLoop width qs (i + 1) [] [renderQuad q0] ≠ [] :=
        formatLoop_ne_nil width qs (i + 1) [renderQuad q0] (by simp)
      rw [joinSep_cons _ _ _ hG]
      simp only [List.append_assoc]
      rw [scanHex_mkLine _ _ hws, scanHex_seps ['\n'] _ (by decide)]
      have hmq : [renderQuad q0] = List.map renderQuad [q0] := by simp
      rw [hmq, ih [q0] (i + 1) rest
        (by intro q' hq'; simp only [List.mem_singleton] at hq'; subst hq';
            exact hqs _ (by simp))
        (fun q' h' => hqs q' (by simp [h']))]
      simp [flatQ]
    · rw [formatLoop, if_neg hf]
      have hmap : List.map renderQuad ws ++ [renderQuad q0] =
          List.map renderQuad (ws ++ [q0]) := by simp
      rw [hmap, ih (ws ++ [q0]) (i + 1) rest ?_ (fun q' h' => hqs q' (by simp [h']))]
      · rw [flatQ_append]
        simp [flatQ]
      · intro q' h'
        rcases List.mem_append.mp h' with h'' | h''
        · exact hws q' h''
        · simp only [List.mem_singleton] at h''; subst h''
          exact hqs _ (by simp)

/-- Re-extracting (`re.findall` over the spliced brace contents, which the
splice surrounds with newlines) from a rendered array body recovers
exactly the serialized bytes. -/
theorem scanHex_renderContent (qs : List (ℕ × ℕ × ℕ × ℕ)) (width : ℕ)
    (hqs : ∀ q ∈ qs, quadLT q) :
    scanHex ('\n' :: (renderContent qs width ++ ['\n'])) = flatQ qs := by
  rw [scanHex_skip '\n' _ (by decide), renderContent]
  have h := scanHex_formatLoop width qs [] 0 ['\n'] (by simp) hqs
  simpa [flatQ, scanHex] using h

/-- `flatQ` inverts a successful `toQuads`. -/
theorem toQuads_flat : ∀ (P : List ℕ) (qs : List (ℕ × ℕ × ℕ × ℕ)),
    toQuads P = some qs → flatQ qs = P
  | [], qs, h => by
    simp only [toQuads, Option.some.injEq] at h
    subst h; rfl
  | [_], qs, h => by simp [toQuads] at h
  | [_, _], qs, h => by simp [toQuads] at h
  | [_, _, _], qs, h => by simp [toQuads] at h
  | b :: g :: r :: a :: rest, qs, h => by
    rw [toQuads] at h
    rcases hrest : toQuads rest with _ | qs' <;> rw [hrest] at h
    · simp at h
    · simp only [Option.map_some', Option.some.injEq] at h
      subst h
      have := toQuads_flat rest qs' hrest
      simp [flatQ, this]

/-- A byte list whose length is a multiple of 4 groups successfully. -/
theorem toQuads_total : ∀ (P : List ℕ), 4 ∣ P.length →
    ∃ qs, toQuads P = some qs
  | [], _ => ⟨[], rfl⟩
  | [_], h => by simp only [List.length_cons, List.length_nil] at h; omega
  | [_, _], h => by simp only [List.length_cons, List.length_nil] at h; omega
  | [_, _, _], h => by simp only [List.length_cons, List.length_nil] at h; omega
  | b :: g :: r :: a :: rest, h => by
    have h4 : 4 ∣ rest.length := by
      simp only [List.length_cons] at h; omega
    obtain ⟨qs, hqs⟩ := toQuads_total rest h4
    exact ⟨(b, g, r, a) :: qs, by rw [toQuads, hqs]; rfl⟩

/-- Byte bounds transfer from the flat list to the quadruples. -/
theorem quadLT_of_toQuads : ∀ (P : List ℕ) (qs : List (ℕ × ℕ × ℕ × ℕ)),
    toQuads P = some qs → (∀ b ∈ P, b < 256) → ∀ q ∈ qs, quadLT q
  | [], qs, h, _ => by
    simp only [toQuads, Option.some.injEq] at h
    subst h; simp
  | [_], qs, h, _ => by simp [toQuads] at h
  | [_, _], qs, h, _ => by simp [toQuads] at h
  | [_, _, _], qs, h, _ => by simp [toQuads] at h
  | b :: g :: r :: a :: rest, qs, h, hb => by
    rw [toQuads] at h
    rcases hrest : toQuads rest with _ | qs' <;> rw [hrest] at h
    · simp at h
    · simp only [Option.map_some', Option.some.injEq] at h
      subst h
      intro q hq
      rcases List.mem_cons.mp hq with rfl | hq'
      · exact ⟨hb b (by simp), hb g (by simp), hb r (by simp), hb a (by simp)⟩
      · exact quadLT_of_toQuads rest qs' hrest
          (fun x hx => hb x (by simp [hx])) q hq'

/-- C6: for every byte sequence `P` (entries < 256, length a multiple of 4)
and positive width, the serializer's array body renders; extracting the
byte values back out of that body (as the extractor does, over the
newline-wrapped brace contents the splice produces) recovers `P` exactly;
and re-serializing the extracted bytes at the same width reproduces the
byte-identical body text — same line wrapping, indentation, trailing
commas, and lowercase two-digit hex. -/
theorem C6_serializer_roundtrip (P : List ℕ) (width : ℕ)
    (hb : ∀ b ∈ P, b < 256) (h4 : 4 ∣ P.length) (hw : 0 < width) :
    ∃ qs, toQuads P = some qs ∧
      scanHex ('\n' :: (renderContent qs width ++ ['\n'])) = P ∧
      (toQuads (scanHex ('\n' :: (renderContent qs width ++ ['\n'])))).map
          (fun qs2 => renderContent qs2 width) =
        some (renderContent qs width) := by
  obtain ⟨qs, hqs⟩ := toQuads_total P h4
  have hlt := quadLT_of_toQuads P qs hqs hb
  have hscan : scanHex ('\n' :: (renderContent qs width ++ ['\n'])) = P := by
    rw [scanHex_renderContent qs width hlt]
    exact toQuads_flat P qs hqs
  refine ⟨qs, hqs, hscan, ?_⟩
  rw [hscan, hqs]
  rfl

/-- C6 witness at the byte sequence `00 11 ab ff`, width 1. -/
theorem C6_witness :
    (∀ b ∈ [0x00, 0x11, 0xab, 0xff], b < 256) ∧
      4 ∣ [0x00, 0x11, 0xab, 0xff].length ∧ 0 < 1 ∧
      ∃ qs, toQuads [0x00, 0x11, 0xab, 0xff] = some qs ∧
        scanHex ('\n' :: (renderContent qs 1 ++ ['\n'])) = [0x00, 0x11, 0xab, 0xff] ∧
        (toQuads (scanHex ('\n' :: (renderContent qs 1 ++ ['\n'])))).map
            (fun qs2 => renderContent qs2 1) =
          some (renderContent qs 1) :=
  ⟨by decide, by decide, by decide,
    C6_serializer_roundtrip [0x00, 0x11, 0xab, 0xff] 1 (by decide) (by decide) (by decide)⟩

/-! ## Claim C3: the corner-distance function -/

/-- A corner whose region test fails contributes nothing. -/
theorem cornerCheck_none (x y w h : ℕ) (radius : ℝ) (c : ℝ × ℝ)
    (hn : ¬(inCornerX x w radius c.1 ∧ inCornerY y h radius c.2)) :
    cornerCheck x y w h radius c = none := by
  rw [cornerCheck, if_neg hn]

/-- In-region, fully outside the circle: early return 1.0. -/
theorem cornerCheck_far (x y w h : ℕ) (radius : ℝ) (c : ℝ × ℝ)
    (hin : inCornerX x w radius c.1 ∧ inCornerY y h radius c.2)
    (hd : distC x y c > radius) :
    cornerCheck x y w h radius c = some 1 := by
  rw [cornerCheck, if_pos hin]
  simp only [if_pos hd]

/-- In-region, in the 1.5-pixel anti-aliasing band: early return of the
linear fraction. -/
theorem cornerCheck_band (x y w h : ℕ) (radius : ℝ) (c : ℝ × ℝ)
    (hin : inCornerX x w radius c.1 ∧ inCornerY y h radius c.2)
    (hd1 : ¬distC x y c > radius) (hd2 : distC x y c > radius - 1.5) :
    cornerCheck x y w h radius c = some ((distC x y c - (radius - 1.5)) / 1.5) := by
  rw [cornerCheck, if_pos hin]
  simp only [if_neg hd1, if_pos hd2]

/-- In-region but deep inside the circle: fall through to the next corner. -/
theorem cornerCheck_inside (x y w h : ℕ) (radius : ℝ) (c : ℝ × ℝ)
    (hin : inCornerX x w radius c.1 ∧ inCornerY y h radius c.2)
    (hd1 : ¬distC x y c > radius) (hd2 : ¬distC x y c > radius - 1.5) :
    cornerCheck x y w h radius c = none := by
  rw [cornerCheck, if_pos hin]
  simp only [if_neg hd1, if_neg hd2]

/-- Loop step: a `none` check moves on to the remaining corners. -/
theorem scanCorners_cons_none (x y w h : ℕ) (radius : ℝ) (c : ℝ × ℝ)
    (cs : List (ℝ × ℝ)) (hc : cornerCheck x y w h radius c = none) :
    scanCorners x y w h radius (c :: cs) = scanCorners x y w h radius cs := by
  rw [scanCorners, hc]

/-- Loop step: a `some` check returns immediately. -/
theorem scanCorners_cons_some (x y w h : ℕ) (radius : ℝ) (c : ℝ × ℝ)
    (cs : List (ℝ × ℝ)) (v : ℝ) (hc : cornerCheck x y w h radius c = some v) :
    scanCorners x y w h radius (c :: cs) = some v := by
  rw [scanCorners, hc]

/-- The Euclidean distance from pixel (1,2) to the top-left corner center
(5,5) of a 112×112 image with radius 5 is exactly 5 (a 3-4-5 triangle). -/
theorem distC_1_2_eq_five : distC 1 2 ((5 : ℝ), (5 : ℝ)) = 5 := by
  rw [distC]
  have harg : (((1 : ℕ) : ℝ) - ((5 : ℝ), (5 : ℝ)).1) ^ 2 +
      (((2 : ℕ) : ℝ) - ((5 : ℝ), (5 : ℝ)).2) ^ 2 = 5 ^ 2 := by norm_num
  rw [harg, Real.sqrt_sq (by norm_num : (0 : ℝ) ≤ 5)]

/-- C3 (counterexample): pixel (1,2) of a 112×112 image with radius 5 lies
in the top-left corner box at distance exactly `radius` from the corner
center, inside the claimed band `radius - 1.5 < distance ≤ radius`; but the
returned fraction is exactly 1.0, which is NOT strictly inside the open
interval (0,1). -/
theorem C3_counterexample :
    (5 : ℝ) - 1.5 < distC 1 2 ((5 : ℝ), (5 : ℝ)) ∧
      distC 1 2 ((5 : ℝ), (5 : ℝ)) ≤ 5 ∧
      distance_to_corner 1 2 112 112 5 = 1 ∧
      ¬(0 < distance_to_corner 1 2 112 112 5 ∧
        distance_to_corner 1 2 112 112 5 < 1) := by
  have hd := distC_1_2_eq_five
  have hin : inCornerX 1 112 (5 : ℝ) ((5 : ℝ), (5 : ℝ)).1 ∧
      inCornerY 2 112 (5 : ℝ) ((5 : ℝ), (5 : ℝ)).2 :=
    ⟨Or.inl ⟨by norm_num, rfl⟩, Or.inl ⟨by norm_num, rfl⟩⟩
  have hval : distance_to_corner 1 2 112 112 5 = 1 := by
    rw [distance_to_corner, cornersOf]
    rw [scanCorners_cons_some 1 2 112 112 5 _ _ ((distC 1 2 ((5 : ℝ), (5 : ℝ)) - ((5 : ℝ) - 1.5)) / 1.5)
      (cornerCheck_band 1 2 112 112 5 _ hin (by rw [hd]; norm_num) (by rw [hd]; norm_num))]
    rw [hd]
    norm_num
  refine ⟨by rw [hd]; norm_num, by rw [hd], hval, ?_⟩
  rw [hval]
  simp

/-- When the corner regions are disjoint (`radius < width - radius - 1`),
membership in the left band characterizes the left-corner `x`-test. -/
theorem inCornerX_left_iff (x w : ℕ) (radius : ℝ)
    (hlt : radius < (w : ℝ) - radius - 1) :
    inCornerX x w radius radius ↔ (x : ℝ) < radius := by
  constructor
  · rintro (⟨h1, _⟩ | ⟨_, h2⟩)
    · exact h1
    · exact absurd h2 (by intro h2; rw [h2] at hlt; linarith)
  · intro hx; exact Or.inl ⟨hx, rfl⟩

/-- Right-corner `x`-test characterization under disjointness. -/
theorem inCornerX_right_iff (x w : ℕ) (radius : ℝ)
    (hlt : radius < (w : ℝ) - radius - 1) :
    inCornerX x w radius ((w : ℝ) - radius - 1) ↔ (x : ℝ) > (w : ℝ) - radius - 1 := by
  constructor
  · rintro (⟨_, h1⟩ | ⟨h2, _⟩)
    · exact absurd h1 (by intro h1; rw [h1] at hlt; linarith)
    · exact h2
  · intro hx; exact Or.inr ⟨hx, rfl⟩

/-- Top-corner `y`-test characterization under disjointness. -/
theorem inCornerY_top_iff (y h : ℕ) (radius : ℝ)
    (hlt : radius < (h : ℝ) - radius - 1) :
    inCornerY y h radius radius ↔ (y : ℝ) < radius := by
  constructor
  · rintro (⟨h1, _⟩ | ⟨_, h2⟩)
    · exact h1
    · exact absurd h2 (by intro h2; rw [h2] at hlt; linarith)
  · intro hy; exact Or.inl ⟨hy, rfl⟩

/-- Bottom-corner `y`-test characterization under disjointness. -/
theorem inCornerY_bot_iff (y h : ℕ) (radius : ℝ)
    (hlt : radius < (h : ℝ) - radius - 1) :
    inCornerY y h radius ((h : ℝ) - radius - 1) ↔ (y : ℝ) > (h : ℝ) - radius - 1 := by
  constructor
  · rintro (⟨_, h1⟩ | ⟨h2, _⟩)
    · exact absurd h1 (by intro h1; rw [h1] at hlt; linarith)
    · exact h2
  · intro hy; exact Or.inr ⟨hy, rfl⟩

/-- Corners whose checks all fail are skipped in front of the scan. -/
theorem scanCorners_append_none (x y w h : ℕ) (radius : ℝ)
    (pre post : List (ℝ × ℝ))
    (hpre : ∀ c ∈ pre, cornerCheck x y w h radius c = none) :
    scanCorners x y w h radius (pre ++ post) = scanCorners x y w h radius post := by
  induction pre with
  | nil => rfl
  | cons c cs ih =>
    rw [List.cons_append, scanCorners_cons_none _ _ _ _ _ _ _ (hpre c (by simp))]
    exact ih (fun c' hc' => hpre c' (by simp [hc']))

/-- If every corner check fails, the scan returns nothing. -/
theorem scanCorners_none_of (x y w h : ℕ) (radius : ℝ) (cs : List (ℝ × ℝ))
    (hall : ∀ c ∈ cs, cornerCheck x y w h radius c = none) :
    scanCorners x y w h radius cs = none := by
  induction cs with
  | nil => rfl
  | cons c cs ih =>
    rw [scanCorners_cons_none _ _ _ _ _ _ _ (hall c (by simp))]
    exact ih (fun c' hc' => hall c' (by simp [hc']))

/-- Core case analysis of `distance_to_corner` when the scan reaches an
in-region corner `c` (every corner before and after `c` failing its region
test or falling through). -/
theorem distance_to_corner_at (x y w h : ℕ) (radius : ℝ) (c : ℝ × ℝ)
    (pre post : List (ℝ × ℝ))
    (hsplit : cornersOf w h radius = pre ++ c :: post)
    (hpre : ∀ c' ∈ pre, cornerCheck x y w h radius c' = none)
    (hpost : ∀ c' ∈ post, cornerCheck x y w h radius c' = none)
    (hin : inCornerX x w radius c.1 ∧ inCornerY y h radius c.2) :
    (distC x y c > radius → distance_to_corner x y w h radius = 1) ∧
    (radius - 1.5 < distC x y c → distC x y c ≤ radius →
      distance_to_corner x y w h radius = (distC x y c - (radius - 1.5)) / 1.5 ∧
      0 < distance_to_corner x y w h radius ∧
      distance_to_corner x y w h radius ≤ 1 ∧
      (distance_to_corner x y w h radius = 1 ↔ distC x y c = radius)) ∧
    (distC x y c ≤ radius - 1.5 → distance_to_corner x y w h radius = 0) := by
  refine ⟨?_, ?_, ?_⟩
  · intro hd
    rw [distance_to_corner, hsplit, scanCorners_append_none _ _ _ _ _ _ _ hpre,
      scanCorners_cons_some _ _ _ _ _ _ _ 1 (cornerCheck_far _ _ _ _ _ _ hin hd)]
    rfl
  · intro hd1 hd2
    have hval : distance_to_corner x y w h radius =
        (distC x y c - (radius - 1.5)) / 1.5 := by
      rw [distance_to_corner, hsplit, scanCorners_append_none _ _ _ _ _ _ _ hpre,
        scanCorners_cons_some _ _ _ _ _ _ _ _
          (cornerCheck_band _ _ _ _ _ _ hin (not_lt.mpr hd2) hd1)]
      rfl
    refine ⟨hval, ?_, ?_, ?_⟩
    · rw [hval]
      exact div_pos (by linarith) (by norm_num)
    · rw [hval]
      rw [div_le_one (by norm_num : (0 : ℝ) < 1.5)]
      linarith
    · rw [hval, div_eq_one_iff_eq (by norm_num : (1.5 : ℝ) ≠ 0)]
      constructor <;> intro hh <;> linarith
  · intro hd
    have hnone : cornerCheck x y w h radius c = none :=
      cornerCheck_inside _ _ _ _ _ _ hin (by simp only [gt_iff_lt, not_lt]; linarith)
        (by simp only [gt_iff_lt, not_lt]; linarith)
    rw [distance_to_corner, hsplit, scanCorners_append_none _ _ _ _ _ _ _ hpre,
      scanCorners_cons_none _ _ _ _ _ _ _ hnone, scanCorners_none_of _ _ _ _ _ _ hpost]
    rfl

/-- C3 (amended): for radii with `2·radius + 1 < width` and
`2·radius + 1 < height` (disjoint corner regions, so "that corner" is
unambiguous), the corner-distance function returns: 1.0 in a corner box at
distance > radius from that corner's center; the linear fraction
`(distance - (radius - 1.5)) / 1.5` — which lies in the HALF-OPEN interval
(0, 1], reaching exactly 1 iff distance = radius — when
`radius - 1.5 < distance ≤ radius`; 0.0 when `distance ≤ radius - 1.5`;
and 0.0 outside every corner box. -/
theorem C3_corner_distance_spec (x y w h : ℕ) (radius : ℝ)
    (hw : 2 * radius + 1 < (w : ℝ)) (hh : 2 * radius + 1 < (h : ℝ)) :
    ((∀ c ∈ cornersOf w h radius,
        ¬(inCornerX x w radius c.1 ∧ inCornerY y h radius c.2)) →
      distance_to_corner x y w h radius = 0) ∧
    (∀ c ∈ cornersOf w h radius,
      inCornerX x w radius c.1 → inCornerY y h radius c.2 →
      (distC x y c > radius → distance_to_corner x y w h radius = 1) ∧
      (radius - 1.5 < distC x y c → distC x y c ≤ radius →
        distance_to_corner x y w h radius = (distC x y c - (radius - 1.5)) / 1.5 ∧
        0 < distance_to_corner x y w h radius ∧
        distance_to_corner x y w h radius ≤ 1 ∧
        (distance_to_corner x y w h radius = 1 ↔ distC x y c = radius)) ∧
      (distC x y c ≤ radius - 1.5 → distance_to_corner x y w h radius = 0)) := by
  have hrw : radius < (w : ℝ) - radius - 1 := by linarith
  have hrh : radius < (h : ℝ) - radius - 1 := by linarith
  constructor
  · intro hnone
    rw [distance_to_corner, scanCorners_none_of _ _ _ _ _ _
      (fun c hc => cornerCheck_none _ _ _ _ _ _ (hnone c hc))]
    rfl
  · intro c hc hinX hinY
    simp only [cornersOf, List.mem_cons, List.not_mem_nil, or_false] at hc
    rcases hc with rfl | rfl | rfl | rfl
    · have hx := (inCornerX_left_iff x w radius hrw).mp hinX
      have hy := (inCornerY_top_iff y h radius hrh).mp hinY
      exact distance_to_corner_at x y w h radius _ []
        [((w : ℝ) - radius - 1, radius), (radius, (h : ℝ) - radius - 1),
         ((w : ℝ) - radius - 1, (h : ℝ) - radius - 1)]
        rfl (by simp)
        (by
          intro c' hc'
          simp only [List.mem_cons, List.not_mem_nil, or_false] at hc'
          rcases hc' with rfl | rfl | rfl
          · exact cornerCheck_none _ _ _ _ _ _ (fun hin' =>
              absurd ((inCornerX_right_iff x w radius hrw).mp hin'.1)
                (by push_neg; linarith))
          · exact cornerCheck_none _ _ _ _ _ _ (fun hin' =>
              absurd ((inCornerY_bot_iff y h radius hrh).mp hin'.2)
                (by push_neg; linarith))
          · exact cornerCheck_none _ _ _ _ _ _ (fun hin' =>
              absurd ((inCornerX_right_iff x w radius hrw).mp hin'.1)
                (by push_neg; linarith)))
        ⟨hinX, hinY⟩
    · have hx := (inCornerX_right_iff x w radius hrw).mp hinX
      have hy := (inCornerY_top_iff y h radius hrh).mp hinY
      exact distance_to_corner_at x y w h radius _ [(radius, radius)]
        [(radius, (h : ℝ) - radius - 1), ((w : ℝ) - radius - 1, (h : ℝ) - radius - 1)]
        rfl
        (by
          intro c' hc'
          simp only [List.mem_cons, List.not_mem_nil, or_false] at hc'
          rcases hc' with rfl
          exact cornerCheck_none _ _ _ _ _ _ (fun hin' =>
            absurd ((inCornerX_left_iff x w radius hrw).mp hin'.1)
              (by push_neg; linarith)))
        (by
          intro c' hc'
          simp only [List.mem_cons, List.not_mem_nil, or_false] at hc'
          rcases hc' with rfl | rfl
          · exact cornerCheck_none _ _ _ _ _ _ (fun hin' =>
              absurd ((inCornerX_left_iff x w radius hrw).mp hin'.1)
                (by push_neg; linarith))
          · exact cornerCheck_none _ _ _ _ _ _ (fun hin' =>
              absurd ((inCornerY_bot_iff y h radius hrh).mp hin'.2)
                (by push_neg; linarith)))
        ⟨hinX, hinY⟩
    · have hx := (inCornerX_left_iff x w radius hrw).mp hinX
      have hy := (inCornerY_bot_iff y h radius hrh).mp hinY
      exact distance_to_corner_at x y w h radius _
        [(radius, radius), ((w : ℝ) - radius - 1, radius)]
        [((w : ℝ) - radius - 1, (h : ℝ) - radius - 1)]
        rfl
        (by
          intro c' hc'
          simp only [List.mem_cons, List.not_mem_nil, or_false] at hc'
          rcases hc' with rfl | rfl
          · exact cornerCheck_none _ _ _ _ _ _ (fun hin' =>
              absurd ((inCornerY_top_iff y h radius hrh).mp hin'.2)
                (by push_neg; linarith))
          · exact cornerCheck_none _ _ _ _ _ _ (fun hin' =>
              absurd ((inCornerX_right_iff x w radius hrw).mp hin'.1)
                (by push_neg; linarith)))
        (by
          intro c' hc'
          simp only [List.mem_cons, List.not_mem_nil, or_false] at hc'
          rcases hc' with rfl
          exact cornerCheck_none _ _ _ _ _ _ (fun hin' =>
            absurd ((inCornerX_right_iff x w radius hrw).mp hin'.1)
              (by push_neg; linarith)))
        ⟨hinX, hinY⟩
    · have hx := (inCornerX_right_iff x w radius hrw).mp hinX
      have hy := (inCornerY_bot_iff y h radius hrh).mp hinY
      exact distance_to_corner_at x y w h radius _
        [(radius, radius), ((w : ℝ) - radius - 1, radius),
         (radius, (h : ℝ) - radius - 1)] []
        rfl
        (by
          intro c' hc'
          simp only [List.mem_cons, List.not_mem_nil, or_false] at hc'
          rcases hc' with rfl | rfl | rfl
          · exact cornerCheck_none _ _ _ _ _ _ (fun hin' =>
              absurd ((inCornerX_left_iff x w radius hrw).mp hin'.1)
                (by push_neg; linarith))
          · exact cornerCheck_none _ _ _ _ _ _ (fun hin' =>
              absurd ((inCornerY_top_iff y h radius hrh).mp hin'.2)
                (by push_neg; linarith))
          · exact cornerCheck_none _ _ _ _ _ _ (fun hin' =>
              absurd ((inCornerX_left_iff x w radius hrw).mp hin'.1)
                (by push_neg; linarith)))
        (by simp)
        ⟨hinX, hinY⟩

/-- C3 witness: the 3-4-5 pixel (1,2) with radius 5 in a 112×112 image,
sitting in the top-left region at distance exactly `radius`. -/
theorem C3_witness :
    2 * (5 : ℝ) + 1 < ((112 : ℕ) : ℝ) ∧
    ((5 : ℝ), (5 : ℝ)) ∈ cornersOf 112 112 5 ∧
    inCornerX 1 112 5 ((5 : ℝ), (5 : ℝ)).1 ∧
    inCornerY 2 112 5 ((5 : ℝ), (5 : ℝ)).2 ∧
    (5 : ℝ) - 1.5 < distC 1 2 ((5 : ℝ), (5 : ℝ)) ∧
    distC 1 2 ((5 : ℝ), (5 : ℝ)) ≤ 5 ∧
    (distance_to_corner 1 2 112 112 5 =
        (distC 1 2 ((5 : ℝ), (5 : ℝ)) - ((5 : ℝ) - 1.5)) / 1.5 ∧
      0 < distance_to_corner 1 2 112 112 5 ∧
      distance_to_corner 1 2 112 112 5 ≤ 1 ∧
      (distance_to_corner 1 2 112 112 5 = 1 ↔ distC 1 2 ((5 : ℝ), (5 : ℝ)) = 5)) :=
  ⟨by norm_num,
   by simp [cornersOf],
   Or.inl ⟨by norm_num, rfl⟩,
   Or.inl ⟨by norm_num, rfl⟩,
   by rw [distC_1_2_eq_five]; norm_num,
   by rw [distC_1_2_eq_five],
   ((C3_corner_distance_spec 1 2 112 112 5 (by norm_num) (by norm_num)).2
      ((5 : ℝ), (5 : ℝ)) (by simp [cornersOf])
      (Or.inl ⟨by norm_num, rfl⟩) (Or.inl ⟨by norm_num, rfl⟩)).2.1
      (by rw [distC_1_2_eq_five]; norm_num)
      (by rw [distC_1_2_eq_five])⟩

/-! ## Claims C4, C5, C7, C8, C9: the pixel transformer -/

/-- Indexing past an append lands in the right part. -/
theorem getD_append_ge {α : Type} (A : List α) :
    ∀ (B : List α) (j : ℕ) (d : α), (A ++ B).getD (A.length + j) d = B.getD j d := by
  induction A with
  | nil => intro B j d; simp
  | cons a A ih =>
    intro B j d
    simp only [List.cons_append, List.length_cons]
    have he : A.length + 1 + j = (A.length + j) + 1 := by omega
    rw [he, List.getD_cons_succ, ih]

/-- Setting past an append updates the right part. -/
theorem set_append_ge {α : Type} (A : List α) :
    ∀ (B : List α) (j : ℕ) (v : α), (A ++ B).set (A.length + j) v = A ++ B.set j v := by
  induction A with
  | nil => intro B j v; simp
  | cons a A ih =>
    intro B j v
    simp only [List.cons_append, List.length_cons]
    have he : A.length + 1 + j = (A.length + j) + 1 := by omega
    rw [he, List.set_cons_succ, ih]

/-- `getD` after `drop`. -/
theorem getD_drop {α : Type} (l : List α) :
    ∀ (n m : ℕ) (d : α), (List.drop n l).getD m d = l.getD (n + m) d := by
  induction l with
  | nil => intro n m d; simp
  | cons a l ih =>
    intro n m d
    cases n with
    | zero => simp
    | succ n =>
      rw [List.drop_succ_cons, ih]
      have he : n + 1 + m = (n + m) + 1 := by omega
      rw [he, List.getD_cons_succ]

/-- Any list of length at least 4 starts with four elements. -/
theorem four_elems {α : Type} (l : List α) (hl : 4 ≤ l.length) :
    ∃ a b c d t, l = a :: b :: c :: d :: t := by
  match l with
  | a :: b :: c :: d :: t => exact ⟨a, b, c, d, t, rfl⟩
  | [] => simp at hl
  | [_] => simp at hl
  | [_, _] => simp at hl
  | [_, _, _] => simp at hl

/-- `quadJoin` length. -/
theorem quadJoin_length (l : List (ℤ × ℤ × ℤ × ℤ)) :
    (quadJoin l).length = 4 * l.length := by
  induction l with
  | nil => rfl
  | cons q l ih => simp only [quadJoin, List.length_cons, ih]; ring

/-- `quadJoin` distributes over append. -/
theorem quadJoin_append (a b : List (ℤ × ℤ × ℤ × ℤ)) :
    quadJoin (a ++ b) = quadJoin a ++ quadJoin b := by
  induction a with
  | nil => rfl
  | cons q a ih => simp [quadJoin, ih]

/-- One loop iteration rewrites exactly its own four bytes by
`transformQuad` when the working list splits as
`(4·p bytes) ++ b :: g :: r :: a :: tail`. -/
theorem loopStep_modified_eq (w h : ℕ) (radius : ℝ) (ms : ℚ) (st : IconState)
    (p : ℕ) (A : List ℤ) (b g r a : ℤ) (T : List ℤ)
    (hmod : st.modified = A ++ b :: g :: r :: a :: T) (hA : A.length = 4 * p) :
    (loopStep w h radius ms st p).modified =
      A ++ (transformQuad w h radius ms (p % w) (p / w) (b, g, r, a)).1 ::
        (transformQuad w h radius ms (p % w) (p / w) (b, g, r, a)).2.1 ::
        (transformQuad w h radius ms (p % w) (p / w) (b, g, r, a)).2.2.1 ::
        (transformQuad w h radius ms (p % w) (p / w) (b, g, r, a)).2.2.2 :: T := by
  have hp : p / w * w + p % w = p := by
    rw [Nat.mul_comm (p / w) w]
    exact Nat.div_add_mod p w
  have e0 : (p / w * w + p % w) * 4 = A.length := by rw [hp, hA]; ring
  have hget : ∀ (l : List ℤ) (j : ℕ) (d : ℤ),
      (A ++ l).getD (A.length + j) d = l.getD j d := fun l j d => getD_append_ge A l j d
  have hget0 : ∀ (l : List ℤ) (d : ℤ), (A ++ l).getD A.length d = l.getD 0 d :=
    fun l d => by simpa using getD_append_ge A l 0 d
  have hset : ∀ (l : List ℤ) (j : ℕ) (v : ℤ),
      (A ++ l).set (A.length + j) v = A ++ l.set j v := fun l j v => set_append_ge A l j v
  have hset0 : ∀ (l : List ℤ) (v : ℤ), (A ++ l).set A.length v = A ++ l.set 0 v :=
    fun l v => by simpa using set_append_ge A l 0 v
  simp only [loopStep, transformQuad, hmod, e0, hget, hget0, hset, hset0,
    List.set_cons_zero, List.set_cons_succ, List.getD_cons_zero, List.getD_cons_succ]
  split_ifs <;> simp [hmod]

/-- The `pixels` parameter passes through one loop iteration untouched:
every assignment of the loop body targets `modified`. -/
theorem loopStep_pixels (w h : ℕ) (radius : ℝ) (ms : ℚ) (st : IconState) (p : ℕ) :
    (loopStep w h radius ms st p).pixels = st.pixels := by
  simp only [loopStep]
  split_ifs <;> rfl

/-- The `pixels` parameter passes through the whole loop untouched. -/
theorem foldl_loopStep_pixels (w h : ℕ) (radius : ℝ) (ms : ℚ) (l : List ℕ) :
    ∀ st : IconState, (List.foldl (loopStep w h radius ms) st l).pixels = st.pixels := by
  induction l with
  | nil => intro st; rfl
  | cons p l ih => intro st; rw [List.foldl_cons, ih, loopStep_pixels]

/-- Invariant: after the first `k` pixels, `modified` is the transformed
prefix followed by the untouched suffix of the original bytes. -/
theorem foldl_loopStep_modified (w h : ℕ) (radius : ℝ) (ms : ℚ)
    (pixels : List ℤ) (hlen : pixels.length = w * h * 4) :
    ∀ k, k ≤ w * h →
      (List.foldl (loopStep w h radius ms) ⟨pixels, pixels⟩ (List.range k)).modified =
        quadJoin ((List.range k).map (fun p =>
          transformQuad w h radius ms (p % w) (p / w) (quadAt pixels p))) ++
          pixels.drop (4 * k) := by
  intro k
  induction k with
  | zero => intro _; simp [quadJoin]
  | succ k ih =>
    intro hk
    have hk' : k ≤ w * h := by omega
    have hrs : List.range (k + 1) = List.range k ++ [k] := List.range_succ k
    have hdlen : 4 ≤ (pixels.drop (4 * k)).length := by
      rw [List.length_drop, hlen]; omega
    obtain ⟨b, g, r, a, T, hT⟩ := four_elems _ hdlen
    have e0 : pixels.getD (4 * k) 0 = b := by
      have hgd := getD_drop pixels (4 * k) 0 0
      rw [Nat.add_zero] at hgd
      rw [← hgd, hT]
      rfl
    have e1 : pixels.getD (4 * k + 1) 0 = g := by
      rw [← getD_drop pixels (4 * k) 1 0, hT]
      rfl
    have e2 : pixels.getD (4 * k + 2) 0 = r := by
      rw [← getD_drop pixels (4 * k) 2 0, hT]
      rfl
    have e3 : pixels.getD (4 * k + 3) 0 = a := by
      rw [← getD_drop pixels (4 * k) 3 0, hT]
      rfl
    have hq : quadAt pixels k = (b, g, r, a) := by
      rw [quadAt, e0, e1, e2, e3]
    rw [hrs, List.foldl_append, List.foldl_cons, List.foldl_nil]
    have hA : (quadJoin ((List.range k).map (fun p =>
        transformQuad w h radius ms (p % w) (p / w) (quadAt pixels p)))).length =
        4 * k := by
      rw [quadJoin_length, List.length_map, List.length_range]
    have hmod : (List.foldl (loopStep w h radius ms) ⟨pixels, pixels⟩
        (List.range k)).modified =
        quadJoin ((List.range k).map (fun p =>
          transformQuad w h radius ms (p % w) (p / w) (quadAt pixels p))) ++
          b :: g :: r :: a :: T := by
      rw [ih hk', hT]
    rw [loopStep_modified_eq w h radius ms _ k _ b g r a T hmod hA]
    have hdropT : pixels.drop (4 * (k + 1)) = T := by
      have hdd := List.drop_drop 4 (4 * k) pixels
      rw [hT] at hdd
      simp only [List.drop_succ_cons, List.drop_zero] at hdd
      rw [show 4 * (k + 1) = 4 * k + 4 by ring, ← hdd]
    rw [List.map_append, quadJoin_append, hdropT]
    simp [quadJoin, hq, List.append_assoc]

/-- Reading flat index `4p + j` of a joined quadruple list selects
component `j` of quadruple `p`. -/
theorem quadJoin_getD (l : List (ℤ × ℤ × ℤ × ℤ)) :
    ∀ p, p < l.length →
      (quadJoin l).getD (4 * p) 0 = (l.getD p (0, 0, 0, 0)).1 ∧
      (quadJoin l).getD (4 * p + 1) 0 = (l.getD p (0, 0, 0, 0)).2.1 ∧
      (quadJoin l).getD (4 * p + 2) 0 = (l.getD p (0, 0, 0, 0)).2.2.1 ∧
      (quadJoin l).getD (4 * p + 3) 0 = (l.getD p (0, 0, 0, 0)).2.2.2 := by
  induction l with
  | nil => intro p hp; simp at hp
  | cons q l ih =>
    intro p hp
    cases p with
    | zero =>
      refine ⟨?_, ?_, ?_, ?_⟩ <;> simp [quadJoin]
    | succ p =>
      have hp' : p < l.length := by
        simp only [List.length_cons] at hp; omega
      obtain ⟨i0, i1, i2, i3⟩ := ih p hp'
      have hpeel : ∀ (n : ℕ) (d : ℤ),
          (quadJoin (q :: l)).getD (n + 4) d = (quadJoin l).getD n d := by
        intro n d
        show (q.1 :: q.2.1 :: q.2.2.1 :: q.2.2.2 :: quadJoin l).getD (n + 4) d = _
        rw [show n + 4 = n + 3 + 1 by ring, List.getD_cons_succ,
          show n + 3 = n + 2 + 1 by ring, List.getD_cons_succ,
          show n + 2 = n + 1 + 1 by ring, List.getD_cons_succ, List.getD_cons_succ]
      refine ⟨?_, ?_, ?_, ?_⟩
      · rw [show 4 * (p + 1) = 4 * p + 4 by ring, hpeel, i0, List.getD_cons_succ]
      · rw [show 4 * (p + 1) + 1 = 4 * p + 1 + 4 by ring, hpeel, i1, List.getD_cons_succ]
      · rw [show 4 * (p + 1) + 2 = 4 * p + 2 + 4 by ring, hpeel, i2, List.getD_cons_succ]
      · rw [show 4 * (p + 1) + 3 = 4 * p + 3 + 4 by ring, hpeel, i3, List.getD_cons_succ]

/-- `getD` over a mapped range. -/
theorem getD_map_range {α : Type} (f : ℕ → α) (n p : ℕ) (hp : p < n) (d : α) :
    ((List.range n).map f).getD p d = f p := by
  rw [List.getD_eq_getElem?_getD, List.getElem?_map, List.getElem?_range hp]
  rfl

/-- The fully spelled-out per-pixel view of `apply_modifications`: for any
in-range pixel `(x, y)` the output quadruple at `idx = (y*width + x)*4` is
`transformQuad` of the input quadruple, and the output length equals the
input length. -/
theorem apply_modifications_getD (pixels : List ℤ) (w h : ℕ) (radius : ℝ)
    (ms : ℚ) (hlen : pixels.length = w * h * 4) (x y : ℕ) (hx : x < w) (hy : y < h) :
    ((apply_modifications pixels w h radius ms).getD []).getD ((y * w + x) * 4) 0 =
      (transformQuad w h radius ms x y (quadAt pixels (y * w + x))).1 ∧
    ((apply_modifications pixels w h radius ms).getD []).getD ((y * w + x) * 4 + 1) 0 =
      (transformQuad w h radius ms x y (quadAt pixels (y * w + x))).2.1 ∧
    ((apply_modifications pixels w h radius ms).getD []).getD ((y * w + x) * 4 + 2) 0 =
      (transformQuad w h radius ms x y (quadAt pixels (y * w + x))).2.2.1 ∧
    ((apply_modifications pixels w h radius ms).getD []).getD ((y * w + x) * 4 + 3) 0 =
      (transformQuad w h radius ms x y (quadAt pixels (y * w + x))).2.2.2 := by
  have hwpos : 0 < w := by omega
  have hp : y * w + x < w * h := by
    calc y * w + x < y * w + w := by omega
    _ = (y + 1) * w := by ring
    _ ≤ h * w := Nat.mul_le_mul_right w (by omega)
    _ = w * h := Nat.mul_comm h w
  have hout : (apply_modifications pixels w h radius ms).getD [] =
      (List.foldl (loopStep w h radius ms) ⟨pixels, pixels⟩
        (List.range (w * h))).modified := by
    rw [apply_modifications, if_neg (by omega)]
    rfl
  have hdropnil : pixels.drop (4 * (w * h)) = [] :=
    List.drop_eq_nil_of_le (by rw [hlen]; omega)
  have hmodeq := foldl_loopStep_modified w h radius ms pixels hlen (w * h) le_rfl
  rw [hdropnil, List.append_nil] at hmodeq
  have hmaplen : ((List.range (w * h)).map (fun p =>
      transformQuad w h radius ms (p % w) (p / w) (quadAt pixels p))).length =
      w * h := by
    rw [List.length_map, List.length_range]
  obtain ⟨j0, j1, j2, j3⟩ := quadJoin_getD _ (y * w + x) (by rw [hmaplen]; exact hp)
  have hmodx : (y * w + x) % w = x := by
    rw [Nat.add_comm, Nat.add_mul_mod_self_right]
    exact Nat.mod_eq_of_lt hx
  have hdivy : (y * w + x) / w = y := by
    rw [Nat.add_comm, Nat.add_mul_div_right x y hwpos, Nat.div_eq_of_lt hx]
    omega
  have hfp : ((List.range (w * h)).map (fun p =>
      transformQuad w h radius ms (p % w) (p / w) (quadAt pixels p))).getD
        (y * w + x) (0, 0, 0, 0) =
      transformQuad w h radius ms x y (quadAt pixels (y * w + x)) := by
    rw [getD_map_range _ _ _ hp, hmodx, hdivy]
  rw [hout, hmodeq]
  have hmul : (y * w + x) * 4 = 4 * (y * w + x) := by ring
  rw [hmul]
  exact ⟨by rw [j0, hfp], by rw [j1, hfp], by rw [j2, hfp], by rw [j3, hfp]⟩

/-- C4: `apply_modifications` raises the dimension error exactly when the
byte count differs from `width*height*4`; the check is the first statement
of the function, before the working copy is made or any pixel is read, and
in the error case no byte list is produced at all (no partial
transformation is observable). -/
theorem C4_dimension_check (pixels : List ℤ) (w h : ℕ) (radius : ℝ) (ms : ℚ) :
    apply_modifications pixels w h radius ms = none ↔
      pixels.length ≠ w * h * 4 := by
  rw [apply_modifications]
  by_cases hl : pixels.length ≠ w * h * 4
  · simp [hl]
  · simp [hl]

/-- C9: the `pixels` argument is never mutated: the loop of
`apply_modifications` starts from the copy `modified = list(pixels)` and
every write of every iteration targets `modified`, so after the whole loop
the `pixels` variable still holds its original byte list. -/
theorem C9_input_not_mutated (pixels : List ℤ) (w h : ℕ) (radius : ℝ) (ms : ℚ) :
    (List.foldl (loopStep w h radius ms) ⟨pixels, pixels⟩
      (List.range (w * h))).pixels = pixels :=
  foldl_loopStep_pixels w h radius ms (List.range (w * h)) ⟨pixels, pixels⟩

/-- C8: on any input of the correct length `width*height*4`, the
transformer's output byte list has exactly the input's length. -/
theorem C8_length_preserved (pixels : List ℤ) (w h : ℕ) (radius : ℝ) (ms : ℚ)
    (hlen : pixels.length = w * h * 4) :
    ((apply_modifications pixels w h radius ms).getD []).length = pixels.length := by
  have hout : (apply_modifications pixels w h radius ms).getD [] =
      (List.foldl (loopStep w h radius ms) ⟨pixels, pixels⟩
        (List.range (w * h))).modified := by
    rw [apply_modifications, if_neg (by omega)]
    rfl
  rw [hout, foldl_loopStep_modified w h radius ms pixels hlen (w * h) le_rfl,
    List.length_append, quadJoin_length, List.length_map, List.length_range,
    List.length_drop, hlen]
  omega

/-- C8 witness: a 1×1 image. -/
theorem C8_witness :
    ([1, 2, 3, 4] : List ℤ).length = 1 * 1 * 4 ∧
      ((apply_modifications [1, 2, 3, 4] 1 1 0 0).getD []).length =
        ([1, 2, 3, 4] : List ℤ).length :=
  ⟨by decide, C8_length_preserved [1, 2, 3, 4] 1 1 0 0 (by decide)⟩

/-- C7: a pixel at corner-distance ≥ 1 has all four output channels 0. -/
theorem C7_corner_clip_total (pixels : List ℤ) (w h : ℕ) (radius : ℝ) (ms : ℚ)
    (x y : ℕ) (hx : x < w) (hy : y < h) (hlen : pixels.length = w * h * 4)
    (hcd : distance_to_corner x y w h radius ≥ 1) :
    ((apply_modifications pixels w h radius ms).getD []).getD ((y * w + x) * 4) 0 = 0 ∧
    ((apply_modifications pixels w h radius ms).getD []).getD ((y * w + x) * 4 + 1) 0 = 0 ∧
    ((apply_modifications pixels w h radius ms).getD []).getD ((y * w + x) * 4 + 2) 0 = 0 ∧
    ((apply_modifications pixels w h radius ms).getD []).getD ((y * w + x) * 4 + 3) 0 = 0 := by
  obtain ⟨j0, j1, j2, j3⟩ := apply_modifications_getD pixels w h radius ms hlen x y hx hy
  have hq : transformQuad w h radius ms x y (quadAt pixels (y * w + x)) =
      (0, 0, 0, 0) := by
    simp only [transformQuad]
    rw [if_pos hcd]
  exact ⟨by rw [j0, hq], by rw [j1, hq], by rw [j2, hq], by rw [j3, hq]⟩

/-- C5: for a pixel in the anti-aliasing band (corner-distance strictly
between 0 and 1) with a nonnegative (byte-valued) input alpha, the three
color channels pass through unchanged and only the alpha becomes
`floor(a * (1 - d))`, which never exceeds the input alpha. -/
theorem C5_alpha_only_fade (pixels : List ℤ) (w h : ℕ) (radius : ℝ) (ms : ℚ)
    (x y : ℕ) (hx : x < w) (hy : y < h) (hlen : pixels.length = w * h * 4)
    (hcd0 : 0 < distance_to_corner x y w h radius)
    (hcd1 : distance_to_corner x y w h radius < 1)
    (ha : 0 ≤ pixels.getD ((y * w + x) * 4 + 3) 0) :
    ((apply_modifications pixels w h radius ms).getD []).getD ((y * w + x) * 4) 0 =
      pixels.getD ((y * w + x) * 4) 0 ∧
    ((apply_modifications pixels w h radius ms).getD []).getD ((y * w + x) * 4 + 1) 0 =
      pixels.getD ((y * w + x) * 4 + 1) 0 ∧
    ((apply_modifications pixels w h radius ms).getD []).getD ((y * w + x) * 4 + 2) 0 =
      pixels.getD ((y * w + x) * 4 + 2) 0 ∧
    ((apply_modifications pixels w h radius ms).getD []).getD ((y * w + x) * 4 + 3) 0 =
      ⌊(pixels.getD ((y * w + x) * 4 + 3) 0 : ℝ) *
        (1 - distance_to_corner x y w h radius)⌋ ∧
    ((apply_modifications pixels w h radius ms).getD []).getD ((y * w + x) * 4 + 3) 0 ≤
      pixels.getD ((y * w + x) * 4 + 3) 0 := by
  obtain ⟨j0, j1, j2, j3⟩ := apply_modifications_getD pixels w h radius ms hlen x y hx hy
  have hmul : (y * w + x) * 4 = 4 * (y * w + x) := by ring
  have hquad : quadAt pixels (y * w + x) =
      (pixels.getD ((y * w + x) * 4) 0, pixels.getD ((y * w + x) * 4 + 1) 0,
       pixels.getD ((y * w + x) * 4 + 2) 0, pixels.getD ((y * w + x) * 4 + 3) 0) := by
    rw [quadAt, ← hmul]
  have htq : transformQuad w h radius ms x y (quadAt pixels (y * w + x)) =
      (pixels.getD ((y * w + x) * 4) 0, pixels.getD ((y * w + x) * 4 + 1) 0,
       pixels.getD ((y * w + x) * 4 + 2) 0,
       pytruncR ((pixels.getD ((y * w + x) * 4 + 3) 0 : ℝ) *
         (1 - distance_to_corner x y w h radius))) := by
    simp only [transformQuad]
    rw [if_neg (not_le.mpr hcd1), if_pos hcd0, hquad]
  have haR : (0 : ℝ) ≤ (pixels.getD ((y * w + x) * 4 + 3) 0 : ℝ) := by
    exact_mod_cast ha
  have hfloor : pytruncR ((pixels.getD ((y * w + x) * 4 + 3) 0 : ℝ) *
      (1 - distance_to_corner x y w h radius)) =
      ⌊(pixels.getD ((y * w + x) * 4 + 3) 0 : ℝ) *
        (1 - distance_to_corner x y w h radius)⌋ := by
    rw [pytruncR, if_pos (mul_nonneg haR (by linarith))]
  refine ⟨by rw [j0, htq], by rw [j1, htq], by rw [j2, htq],
    by rw [j3, htq, hfloor], ?_⟩
  rw [j3, htq, hfloor]
  have hle : (pixels.getD ((y * w + x) * 4 + 3) 0 : ℝ) *
      (1 - distance_to_corner x y w h radius) ≤
      (pixels.getD ((y * w + x) * 4 + 3) 0 : ℝ) := by
    nlinarith
  calc ⌊(pixels.getD ((y * w + x) * 4 + 3) 0 : ℝ) *
      (1 - distance_to_corner x y w h radius)⌋ ≤
      ⌊(pixels.getD ((y * w + x) * 4 + 3) 0 : ℝ)⌋ := Int.floor_le_floor hle
    _ = pixels.getD ((y * w + x) * 4 + 3) 0 := Int.floor_intCast _

/-- Pixel (0,0) of an 8×8 image with radius 6 is in the top-left region at
distance √72 > 6 from the corner center, so the clipping factor is 1. -/
theorem distance_to_corner_00886 : distance_to_corner 0 0 8 8 6 = 1 := by
  have hd : distC 0 0 ((6 : ℝ), (6 : ℝ)) > 6 := by
    rw [distC, show (((0 : ℕ) : ℝ) - ((6 : ℝ), (6 : ℝ)).1) ^ 2 +
      (((0 : ℕ) : ℝ) - ((6 : ℝ), (6 : ℝ)).2) ^ 2 = 72 by norm_num]
    exact (Real.lt_sqrt (by norm_num : (0 : ℝ) ≤ 6)).mpr (by norm_num)
  rw [distance_to_corner, cornersOf,
    scanCorners_cons_some _ _ _ _ _ _ _ 1
      (cornerCheck_far _ _ _ _ _ _
        ⟨Or.inl ⟨by norm_num, rfl⟩, Or.inl ⟨by norm_num, rfl⟩⟩ hd)]
  rfl

/-- C7 witness: corner pixel (0,0) of an 8×8 all-7 image with radius 6. -/
theorem C7_witness :
    (0 < 8 ∧ 0 < 8 ∧ (List.replicate 256 (7 : ℤ)).length = 8 * 8 * 4 ∧
      distance_to_corner 0 0 8 8 6 ≥ 1) ∧
    (((apply_modifications (List.replicate 256 (7 : ℤ)) 8 8 6 0).getD []).getD
        ((0 * 8 + 0) * 4) 0 = 0 ∧
      ((apply_modifications (List.replicate 256 (7 : ℤ)) 8 8 6 0).getD []).getD
        ((0 * 8 + 0) * 4 + 1) 0 = 0 ∧
      ((apply_modifications (List.replicate 256 (7 : ℤ)) 8 8 6 0).getD []).getD
        ((0 * 8 + 0) * 4 + 2) 0 = 0 ∧
      ((apply_modifications (List.replicate 256 (7 : ℤ)) 8 8 6 0).getD []).getD
        ((0 * 8 + 0) * 4 + 3) 0 = 0) :=
  ⟨⟨by decide, by decide, by rw [List.length_replicate],
      by rw [distance_to_corner_00886]⟩,
    C7_corner_clip_total (List.replicate 256 (7 : ℤ)) 8 8 6 0 0 0
      (by decide) (by decide) (by rw [List.length_replicate])
      (by rw [distance_to_corner_00886])⟩

/-- Pixel (3,2) of an 8×8 image with radius 6 is in the top-left region at
distance exactly 5 (a 3-4-5 triangle), inside the anti-aliasing band, with
clipping factor (5 - 4.5) / 1.5 = 1/3. -/
theorem distance_to_corner_32886 : distance_to_corner 3 2 8 8 6 = 1 / 3 := by
  have hd : distC 3 2 ((6 : ℝ), (6 : ℝ)) = 5 := by
    rw [distC, show (((3 : ℕ) : ℝ) - ((6 : ℝ), (6 : ℝ)).1) ^ 2 +
      (((2 : ℕ) : ℝ) - ((6 : ℝ), (6 : ℝ)).2) ^ 2 = 5 ^ 2 by norm_num,
      Real.sqrt_sq (by norm_num : (0 : ℝ) ≤ 5)]
  rw [distance_to_corner, cornersOf,
    scanCorners_cons_some _ _ _ _ _ _ _ ((distC 3 2 ((6 : ℝ), (6 : ℝ)) - ((6 : ℝ) - 1.5)) / 1.5)
      (cornerCheck_band _ _ _ _ _ _
        ⟨Or.inl ⟨by norm_num, rfl⟩, Or.inl ⟨by norm_num, rfl⟩⟩
        (by rw [hd]; norm_num) (by rw [hd]; norm_num))]
  rw [hd]
  norm_num

/-- C5 witness: band pixel (3,2) of an 8×8 all-7 image with radius 6. -/
theorem C5_witness :
    (3 < 8 ∧ 2 < 8 ∧ (List.replicate 256 (7 : ℤ)).length = 8 * 8 * 4 ∧
      0 < distance_to_corner 3 2 8 8 6 ∧ distance_to_corner 3 2 8 8 6 < 1 ∧
      0 ≤ (List.replicate 256 (7 : ℤ)).getD ((2 * 8 + 3) * 4 + 3) 0) ∧
    (((apply_modifications (List.replicate 256 (7 : ℤ)) 8 8 6 0).getD []).getD
        ((2 * 8 + 3) * 4) 0 = (List.replicate 256 (7 : ℤ)).getD ((2 * 8 + 3) * 4) 0 ∧
      ((apply_modifications (List.replicate 256 (7 : ℤ)) 8 8 6 0).getD []).getD
        ((2 * 8 + 3) * 4 + 1) 0 = (List.replicate 256 (7 : ℤ)).getD ((2 * 8 + 3) * 4 + 1) 0 ∧
      ((apply_modifications (List.replicate 256 (7 : ℤ)) 8 8 6 0).getD []).getD
        ((2 * 8 + 3) * 4 + 2) 0 = (List.replicate 256 (7 : ℤ)).getD ((2 * 8 + 3) * 4 + 2) 0 ∧
      ((apply_modifications (List.replicate 256 (7 : ℤ)) 8 8 6 0).getD []).getD
        ((2 * 8 + 3) * 4 + 3) 0 =
        ⌊((List.replicate 256 (7 : ℤ)).getD ((2 * 8 + 3) * 4 + 3) 0 : ℝ) *
          (1 - distance_to_corner 3 2 8 8 6)⌋ ∧
      ((apply_modifications (List.replicate 256 (7 : ℤ)) 8 8 6 0).getD []).getD
        ((2 * 8 + 3) * 4 + 3) 0 ≤
        (List.replicate 256 (7 : ℤ)).getD ((2 * 8 + 3) * 4 + 3) 0) :=
  ⟨⟨by decide, by decide, by rw [List.length_replicate],
      by rw [distance_to_corner_32886]; norm_num,
      by rw [distance_to_corner_32886]; norm_num,
      by decide⟩,
    C5_alpha_only_fade (List.replicate 256 (7 : ℤ)) 8 8 6 0 3 2
      (by decide) (by decide) (by rw [List.length_replicate])
      (by rw [distance_to_corner_32886]; norm_num)
      (by rw [distance_to_corner_32886]; norm_num)
      (by decide)⟩

/-- C2 witness: height 10, `max_shadow = 1/5`, row 8 (at-or-below the
threshold 7). -/
theorem C2_witness :
    1 ≤ 10 ∧ shadow_start 10 ≤ (8 : ℤ) ∧
      get_shadow_factor 8 10 (1 / 5) =
        1 - (((8 : ℚ) - (shadow_start 10 : ℚ)) /
          ((10 : ℚ) - (shadow_start 10 : ℚ))) * (1 / 5) ∧
      (0 < (1 : ℚ) / 5 ∧
        1 - 1 / 5 < get_shadow_factor (10 - 1) 10 (1 / 5)) :=
  ⟨by norm_num, by norm_num [shadow_start],
    (C2_shadow_factor_formula 10 (1 / 5) (by norm_num)).2.1 8
      (by norm_num [shadow_start]),
    by norm_num,
    (C2_shadow_factor_formula 10 (1 / 5) (by norm_num)).2.2.2 (by norm_num)⟩
